import Mathlib

set_option maxHeartbeats 1000000

/-!
Verification development for the my_own_crawler repository
(WebCrawler.py, LinkAnalyzer.py).

Modelling conventions:
* Python strings are lists of characters (abbrev Str), Python dicts are
  association lists in insertion order, Python floats are rationals.
* normalize_url, the crawl seeding, and get_filename_for_url are built on
  the standard library urllib.parse; the relevant routines (urlparse,
  urlunparse and their helpers) are embedded below following the CPython
  source (scheme detection, netloc splitting with the bracket ValueError,
  fragment/query splitting, params splitting for the uses_params schemes).
  Character classes (isalpha, isalnum, lower) are modelled on their ASCII
  behaviour; the WHATWG control-character stripping of newer CPython is
  not modelled (the model is CPython's parsing on strings free of ASCII
  control characters and leading spaces), and host validation is the
  bracket-pairing ValueError check (newer CPython additionally rejects
  bracketed hosts that are not IPv6/IPvFuture literals, enlarging the
  error set; the crawler turns every such error into a pass-through).
-/

abbrev Str := List Char

def str (s : String) : Str := s.data

/-! ### Generic first-occurrence splitting (models s.split(c, 1) / s.find) -/

def splitOnFirst (p : Char → Bool) : Str → Str × Option Str
  | [] => ([], none)
  | c :: t =>
    if p c then ([], some t)
    else
      let r := splitOnFirst p t
      (c :: r.1, r.2)

/-! ### Last-occurrence splitting (models s.rfind) -/

def splitAtLast (p : Char → Bool) : Str → Option (Str × Str)
  | [] => none
  | c :: t =>
    match splitAtLast p t with
    | some (a, b) => some (c :: a, b)
    | none => if p c then some ([], t) else none

/-! ### Netloc extraction (models urllib.parse._splitnetloc) -/

def isNetDelim (c : Char) : Bool := c == '/' || c == '?' || c == '#'

def netlocSpan : Str → Str × Str
  | [] => ([], [])
  | c :: t =>
    if isNetDelim c then ([], c :: t)
    else
      let r := netlocSpan t
      (c :: r.1, r.2)

/-! ### Scheme detection (models the scheme test in urllib.parse.urlsplit) -/

def isSchemeChar (c : Char) : Bool := c.isAlphanum || c == '+' || c == '-' || c == '.'

def validScheme : Str → Bool
  | [] => false
  | c :: t => c.isAlpha && (c :: t).all isSchemeChar

def splitScheme (u : Str) : Str × Str :=
  match splitOnFirst (· == ':') u with
  | (pre, some rest) =>
    if validScheme pre then (pre.map Char.toLower, rest) else ([], u)
  | (_, none) => ([], u)

/-! ### urlsplit / urlparse / urlunparse -/

structure URLParts where
  scheme : Str
  netloc : Str
  path : Str
  params : Str
  query : Str
  fragment : Str
deriving DecidableEq, Repr

/-- the tail of urlsplit after netloc extraction: the bracket ValueError
check, then fragment and query splitting. -/
def urlsplitCore (s n r : Str) : Option URLParts :=
  if ('[' ∈ n ↔ ']' ∈ n) then
    let fr := splitOnFirst (· == '#') r
    let qr := splitOnFirst (· == '?') fr.1
    some ⟨s, n, qr.1, [], (qr.2).getD [], (fr.2).getD []⟩
  else
    none

/-- urlsplit: returns none exactly on the ValueError that CPython raises for
a netloc containing one bracket of a [...] pair but not the other (the
url[:2] == // test guards netloc extraction, as in the source). -/
def urlsplitE (u : Str) : Option URLParts :=
  if ((splitScheme u).2).take 2 = ['/', '/'] then
    urlsplitCore (splitScheme u).1 (netlocSpan (((splitScheme u).2).drop 2)).1
      (netlocSpan (((splitScheme u).2).drop 2)).2
  else
    urlsplitCore (splitScheme u).1 [] (splitScheme u).2

/-- the uses_params list of urllib.parse (schemes whose path gets a params
split). -/
def usesParams : List Str :=
  [[], str "ftp", str "hdl", str "prospero", str "http", str "imap",
   str "https", str "shttp", str "rtsp", str "rtsps", str "rtspu", str "sip",
   str "sips", str "mms", str "sftp", str "tel"]

/-- the uses_netloc list of urllib.parse (schemes for which urlunsplit
restores a // even for an empty netloc). -/
def usesNetloc : List Str :=
  [[], str "ftp", str "http", str "gopher", str "nntp", str "telnet",
   str "imap", str "wais", str "file", str "mms", str "https", str "shttp",
   str "snews", str "prospero", str "rtsp", str "rtsps", str "rtspu",
   str "rsync", str "svn", str "svn+ssh", str "sftp", str "nfs",
   str "git", str "git+ssh", str "ws", str "wss"]

/-- models urllib.parse._splitparams (only ever invoked when the path
contains a semicolon). -/
def splitParamsFun (w : Str) : Str × Str :=
  match splitAtLast (· == '/') w with
  | some (w1, w2) =>
    match splitOnFirst (· == ';') w2 with
    | (a, some b) => (w1 ++ '/' :: a, b)
    | (_, none) => (w, [])
  | none =>
    match splitOnFirst (· == ';') w with
    | (a, some b) => (a, b)
    | (_, none) => (w, [])

def urlparseE (u : Str) : Option URLParts :=
  (urlsplitE u).map fun p =>
    if p.scheme ∈ usesParams ∧ ';' ∈ p.path then
      let pp := splitParamsFun p.path
      { p with path := pp.1, params := pp.2 }
    else p

def urlunparse (s n pa pr q f : Str) : Str :=
  let u1 := if pr = [] then pa else pa ++ ';' :: pr
  let u2 :=
    if n ≠ [] ∨ (s ≠ [] ∧ s ∈ usesNetloc ∧ u1.take 2 ≠ ['/', '/']) then
      ('/' :: '/' :: n) ++ (if u1 ≠ [] ∧ u1.head? ≠ some '/' then '/' :: u1 else u1)
    else u1
  let u3 := if s = [] then u2 else s ++ ':' :: u2
  let u4 := if q = [] then u3 else u3 ++ '?' :: q
  if f = [] then u4 else u4 ++ '#' :: f

/-- WebCrawler.normalize_url: parse, drop the fragment, reassemble, and
append a slash when the parsed path was empty; any parse error returns the
input unchanged. -/
def normalize_url (u : Str) : Str :=
  match urlparseE u with
  | none => u
  | some p =>
    let v := urlunparse p.scheme p.netloc p.path p.params p.query []
    if p.path = [] then v ++ ['/'] else v

/-! ## LinkAnalyzer.py

The link structure dict is an association list in insertion order; float
scores are rationals. -/

abbrev LinkGraph := List (Str × List Str)

/-- the incoming-link counter dict of find_orphaned_pages /
find_authorities: keys of the graph start at 0, and every occurrence of a
key as a link target increments it (non-key targets are ignored by the
membership guard). -/
def bumpCount (m : List (Str × Nat)) (k : Str) : List (Str × Nat) :=
  match m with
  | [] => []
  | (a, v) :: t => if a = k then (a, v + 1) :: t else (a, v) :: bumpCount t k

def incomingTable (g : LinkGraph) : List (Str × Nat) :=
  ((g.map Prod.snd).flatten).foldl bumpCount (g.map (fun p => (p.1, 0)))

def find_orphaned_pages (g : LinkGraph) : List Str :=
  ((incomingTable g).filter (fun p => p.2 = 0)).map Prod.fst

def find_hubs (g : LinkGraph) : List Str :=
  if g = [] then []
  else
    let counts := g.map (fun p => p.2.length)
    let avg : ℚ := (counts.sum : ℚ) / g.length
    let threshold := max (avg * 2) 10
    (g.filter (fun p => (p.2.length : ℚ) > threshold)).map Prod.fst

def find_authorities (g : LinkGraph) : List Str :=
  let inc := incomingTable g
  if inc = [] then []
  else
    let avg : ℚ := ((inc.map Prod.snd).sum : ℚ) / inc.length
    let threshold := max (avg * 2) 5
    (inc.filter (fun p => (p.2 : ℚ) > threshold)).map Prod.fst

/-! PageRank.  Score dicts are association lists; adding to an absent key
appends it, matching dict insertion semantics.  set(links) is modelled by
List.dedup (set iteration order is unspecified in Python; it only affects
the insertion order of fresh non-key entries, not any score value). -/

abbrev ScoreMap := List (Str × ℚ)

def lookupQ : ScoreMap → Str → Option ℚ
  | [], _ => none
  | (a, v) :: t, k => if a = k then some v else lookupQ t k

/-- scores[source]; the KeyError branch is unreachable in analyze_page_rank
(every graph key is a key of the score dict), rendered total with default 0. -/
def getScore (m : ScoreMap) (k : Str) : ℚ := (lookupQ m k).getD 0

def addScore : ScoreMap → Str → ℚ → ScoreMap
  | [], k, w => [(k, w)]
  | (a, v) :: t, k, w => if a = k then (a, v + w) :: t else (a, v) :: addScore t k w

def damping : ℚ := 85 / 100

def prIteration (g : LinkGraph) (scores : ScoreMap) : ScoreMap :=
  let base : ScoreMap := g.map (fun p => (p.1, (1 - damping) / (g.length : ℚ)))
  g.foldl (fun m p =>
    let ul := p.2.dedup
    if ul = [] then m
    else
      let w := getScore scores p.1 * damping / (ul.length : ℚ)
      ul.foldl (fun m t => addScore m t w) m) base

def analyze_page_rank (g : LinkGraph) : ScoreMap :=
  (prIteration g)^[10] (g.map (fun p => (p.1, 1 / (g.length : ℚ))))

/-! Reference definition of the PageRank computation, written from the
specification text of claim C4 (base rank (1-0.85)/N, mass
score[source]*0.85/|distinct targets| to each distinct target, creating
entries for non-key targets, nothing from sources without targets). -/

def specPRIteration (g : LinkGraph) (scores : ScoreMap) : ScoreMap :=
  let start : ScoreMap := g.map (fun p => (p.1, (1 - 85 / 100) / (g.length : ℚ)))
  g.foldl (fun m p =>
    let targets := p.2.dedup
    if 1 ≤ targets.length then
      targets.foldl
        (fun m t => addScore m t (getScore scores p.1 * (85 / 100) / (targets.length : ℚ))) m
    else m) start

def spec_page_rank (g : LinkGraph) : ScoreMap :=
  (specPRIteration g)^[10] (g.map (fun p => (p.1, 1 / (g.length : ℚ))))

/-! ### Concrete graphs used by the claims -/

def xRoot : Str := str "http://x.test/"

def xA : Str := str "http://x.test/a"

def xB : Str := str "http://x.test/b"

/-- the LinkGraph of the end-to-end scenario of the specification. -/
def scenarioGraph : LinkGraph := [(xRoot, [xA, xB]), (xA, [xB]), (xB, [])]

def cycleGraph : LinkGraph :=
  [(str "A", [str "B"]), (str "B", [str "C"]), (str "C", [str "A"])]

def cycleThird : ScoreMap :=
  [(str "A", 1 / 3), (str "B", 1 / 3), (str "C", 1 / 3)]

/-- average outbound-list length over all keys (raw counts), from the
specification text of claim C9. -/
def avgOutbound (g : LinkGraph) : ℚ :=
  ((g.map (fun p => p.2.length)).sum : ℚ) / g.length

def hubGraph : LinkGraph :=
  [(str "h", List.replicate 25 (str "t")), (str "p", []), (str "q", [])]

/-! ## WebCrawler.py: the crawl loop

The threaded executor is refined to a sequential model: each process_url
body is one atomic step (in the source every access to the shared visited
set, link structure and counters is lock-protected), and the order in
which a dispatched batch's workers run and complete is an arbitrary
function (reorder), which ranges over all completion schedules.  The fetch
capability (requests.get + HTML link extraction + optional save) is an
oracle returning the extracted links or none for any exception anywhere in
that sequence; the disk cache is an oracle too.  fetchLog records every
invocation of the fetch capability, dispatchLog every submission of a task
to a worker. -/

structure CrawlCfg where
  maxDepth : Nat
  restrictToDomain : Bool
  baseDomain : Str
  maxWorkers : Nat
  savePath : Bool

inductive CacheRes where
  | miss : CacheRes
  | hitFail : CacheRes
  | hit : List Str → CacheRes
deriving DecidableEq

structure FetchWorld where
  fetch : Str → Option (List Str)
  cache : Str → CacheRes

structure CrawlState where
  visited : List Str
  link_structure : List (Str × List Str)
  fetchLog : List Str
  dispatchLog : List (Str × Nat)
deriving DecidableEq

def initialState : CrawlState := ⟨[], [], [], []⟩

/-- dict entry assignment (self.link_structure[url] = links). -/
def setEntry : List (Str × List Str) → Str → List Str → List (Str × List Str)
  | [], k, ls => [(k, ls)]
  | (a, v) :: t, k, ls => if a = k then (a, ls) :: t else (a, v) :: setEntry t k ls

def lookupG : List (Str × List Str) → Str → Option (List Str)
  | [], _ => none
  | (a, v) :: t, k => if a = k then some v else lookupG t k

/-- the final link filter of process_url: normalize each extracted link,
drop already-visited ones, keep it when domain restriction is off or the
link's netloc equals the base domain; a ValueError from urlparse on a link
aborts the whole loop (caught by the outer handler, which returns []). -/
def filterLinks (cfg : CrawlCfg) (visited : List Str) : List Str → Option (List Str)
  | [] => some []
  | l :: t =>
    let ln := normalize_url l
    if ln ∈ visited then filterLinks cfg visited t
    else
      match urlparseE ln with
      | none => none
      | some p =>
        match filterLinks cfg visited t with
        | none => none
        | some rest =>
          if cfg.restrictToDomain = false ∨ p.netloc = cfg.baseDomain then
            some (ln :: rest)
          else some rest

/-- the body of WebCrawler.process_url after its first statement has
rebound url to its normalized form (modelled as the argument u).  Returns
the updated state and the new URLs to crawl; every exception path of the
source returns []. -/
def process_url_core (cfg : CrawlCfg) (world : FetchWorld) (st : CrawlState)
    (u : Str) : CrawlState × List Str :=
  match urlparseE u with
  | none => (st, [])
  | some p =>
    if p.scheme = [] ∨ p.netloc = [] then (st, [])
    else if u ∈ st.visited then (st, [])
    else
      let st1 : CrawlState :=
        { st with visited := st.visited ++ [u],
                  link_structure := setEntry st.link_structure u [] }
      match (if cfg.savePath then world.cache u else CacheRes.miss) with
      | CacheRes.hitFail => (st1, [])
      | CacheRes.hit links =>
        let st2 : CrawlState :=
          { st1 with link_structure := setEntry st1.link_structure u links }
        match filterLinks cfg st2.visited links with
        | none => (st2, [])
        | some new => (st2, new)
      | CacheRes.miss =>
        let st2 : CrawlState := { st1 with fetchLog := st1.fetchLog ++ [u] }
        match world.fetch u with
        | none => (st2, [])
        | some links =>
          let st3 : CrawlState :=
            { st2 with link_structure := setEntry st2.link_structure u links }
          match filterLinks cfg st3.visited links with
          | none => (st3, [])
          | some new => (st3, new)

/-- WebCrawler.process_url: normalize the URL, then run the body. -/
def process_url (cfg : CrawlCfg) (world : FetchWorld) (st : CrawlState)
    (url : Str) (_depth : Nat) : CrawlState × List Str :=
  process_url_core cfg world st (normalize_url url)

/-- the batch-selection loop of crawl(): pop tasks while the batch is
below max_workers, skipping visited / in-batch URLs and discarding tasks
deeper than max_depth. -/
def selectBatch (cfg : CrawlCfg) (visited : List Str) :
    List (Str × Nat) → List (Str × Nat) → List (Str × Nat) × List (Str × Nat)
  | [], batch => (batch.reverse, [])
  | (u, d) :: q, batch =>
    if cfg.maxWorkers ≤ batch.length then (batch.reverse, (u, d) :: q)
    else if u ∈ visited ∨ u ∈ batch.map Prod.fst then selectBatch cfg visited q batch
    else if cfg.maxDepth < d then selectBatch cfg visited q batch
    else selectBatch cfg visited q ((u, d) :: batch)

/-- run the (reordered) batch: log each dispatch, run process_url, pair
each returned link with depth+1. -/
def processBatch (cfg : CrawlCfg) (world : FetchWorld) :
    List (Str × Nat) → CrawlState → CrawlState × List (Str × Nat)
  | [], st => (st, [])
  | (u, d) :: rest, st =>
    let st0 : CrawlState := { st with dispatchLog := st.dispatchLog ++ [(u, d)] }
    let r1 := process_url cfg world st0 u d
    let r2 := processBatch cfg world rest r1.1
    (r2.1, r1.2.map (fun l => (l, d + 1)) ++ r2.2)

def crawlLoop (cfg : CrawlCfg) (world : FetchWorld)
    (reorder : Nat → List (Str × Nat) → List (Str × Nat)) :
    Nat → Nat → CrawlState → List (Str × Nat) → CrawlState
  | 0, _, st, _ => st
  | _ + 1, _, st, [] => st
  | fuel + 1, round, st, q@(_ :: _) =>
    let sel := selectBatch cfg st.visited q []
    if sel.1 = [] then st
    else
      let pr := processBatch cfg world (reorder round sel.1) st
      crawlLoop cfg world reorder fuel (round + 1) pr.1 (sel.2 ++ pr.2)

def httpsPrefix : Str := str "https://"

/-- seed derivation at the top of crawl(): https:// is prepended to
base_domain unless base_domain itself parses with a scheme. -/
def crawlSeed (base : Str) : Option Str :=
  (urlparseE base).map fun p => if p.scheme = [] then httpsPrefix ++ base else base

/-- WebCrawler.crawl(), parameterised by fuel for the outer while loop
(the source loop runs until the frontier drains). -/
def crawl (cfg : CrawlCfg) (world : FetchWorld)
    (reorder : Nat → List (Str × Nat) → List (Str × Nat)) (fuel : Nat) :
    Option CrawlState :=
  (crawlSeed cfg.baseDomain).map fun s =>
    crawlLoop cfg world reorder fuel 0 initialState [(normalize_url s, 1)]

/-- WebCrawler.__init__: base_domain is the netloc of the parsed seed. -/
def mkBaseDomain (seed_url : Str) : Option Str :=
  (urlparseE seed_url).map URLParts.netloc

/-- the initial frontier queue built by crawl() for a given constructor
seed URL. -/
def crawlInitQueue (seed_url : Str) : Option (List (Str × Nat)) :=
  (mkBaseDomain seed_url).bind fun base =>
    (crawlSeed base).map fun s => [(normalize_url s, 1)]

/-! ### At-most-one-fetch and depth-bound invariants -/

def FetchInv (st : CrawlState) : Prop :=
  st.fetchLog.Nodup ∧ ∀ u ∈ st.fetchLog, u ∈ st.visited

def cfgW : CrawlCfg := ⟨2, true, str "x.test", 10, false⟩

def worldW : FetchWorld :=
  ⟨fun u =>
    if u = str "https://x.test/" then some [str "https://x.test/a", str "https://x.test/b"]
    else if u = str "https://x.test/a" then some [str "https://x.test/b"]
    else if u = str "https://x.test/b" then some []
    else none,
   fun _ => CacheRes.miss⟩

def reorderW : Nat → List (Str × Nat) → List (Str × Nat) := fun _ b => b

/-! ### Depth bound (claim C6) -/

def DepthOK (cfg : CrawlCfg) (st : CrawlState) : Prop :=
  ∀ x ∈ st.dispatchLog, x.2 ≤ cfg.maxDepth

def cfg7 : CrawlCfg := ⟨3, true, str "x.test", 10, false⟩

def world7 : FetchWorld := ⟨fun _ => none, fun _ => CacheRes.miss⟩

/-! ### Frontier seeding (claim C2) -/

/-- the seeding rule as amended: the frontier holds exactly one task, at
depth 1, whose URL is normalize_url applied to the seed's netloc — the
netloc itself when it re-parses with a scheme, otherwise the netloc
prefixed with https:// — so the seed's path and query are dropped. -/
def amendedSeedTask (s : Str) : Option (Str × Nat) :=
  (urlparseE s).bind fun p =>
    (urlparseE p.netloc).map fun q =>
      (normalize_url (if q.scheme = [] then httpsPrefix ++ p.netloc else p.netloc), 1)

/-! ## get_filename_for_url (Content Cache naming)

hashlib.md5 is embedded below (RFC 1321, over the UTF-8 bytes of the
path); its value only matters for names longer than 100 characters. -/

def u32 (n : Nat) : Nat := n % 4294967296

def rotl32 (x s : Nat) : Nat := u32 (x <<< s) + x >>> (32 - s)

def utf8Bytes (c : Char) : List Nat :=
  let n := c.toNat
  if n < 128 then [n]
  else if n < 2048 then [192 + n / 64, 128 + n % 64]
  else if n < 65536 then [224 + n / 4096, 128 + (n / 64) % 64, 128 + n % 64]
  else [240 + n / 262144, 128 + (n / 4096) % 64, 128 + (n / 64) % 64, 128 + n % 64]

def encodeUTF8 (s : Str) : List Nat := (s.map utf8Bytes).flatten

def md5pad (msg : List Nat) : List Nat :=
  let len := msg.length
  let zeros := (55 + 64 - len % 64) % 64
  let bitLen := (8 * len) % 2 ^ 64
  msg ++ 128 :: List.replicate zeros 0 ++
    (List.range 8).map (fun i => bitLen / 256 ^ i % 256)

def md5K : List Nat :=
  [0xd76aa478, 0xe8c7b756, 0x242070db, 0xc1bdceee,
   0xf57c0faf, 0x4787c62a, 0xa8304613, 0xfd469501,
   0x698098d8, 0x8b44f7af, 0xffff5bb1, 0x895cd7be,
   0x6b901122, 0xfd987193, 0xa679438e, 0x49b40821,
   0xf61e2562, 0xc040b340, 0x265e5a51, 0xe9b6c7aa,
   0xd62f105d, 0x02441453, 0xd8a1e681, 0xe7d3fbc8,
   0x21e1cde6, 0xc33707d6, 0xf4d50d87, 0x455a14ed,
   0xa9e3e905, 0xfcefa3f8, 0x676f02d9, 0x8d2a4c8a,
   0xfffa3942, 0x8771f681, 0x6d9d6122, 0xfde5380c,
   0xa4beea44, 0x4bdecfa9, 0xf6bb4b60, 0xbebfbc70,
   0x289b7ec6, 0xeaa127fa, 0xd4ef3085, 0x04881d05,
   0xd9d4d039, 0xe6db99e5, 0x1fa27cf8, 0xc4ac5665,
   0xf4292244, 0x432aff97, 0xab9423a7, 0xfc93a039,
   0x655b59c3, 0x8f0ccc92, 0xffeff47d, 0x85845dd1,
   0x6fa87e4f, 0xfe2ce6e0, 0xa3014314, 0x4e0811a1,
   0xf7537e82, 0xbd3af235, 0x2ad7d2bb, 0xeb86d391]

def md5S : List Nat :=
  [7, 12, 17, 22, 7, 12, 17, 22, 7, 12, 17, 22, 7, 12, 17, 22,
   5, 9, 14, 20, 5, 9, 14, 20, 5, 9, 14, 20, 5, 9, 14, 20,
   4, 11, 16, 23, 4, 11, 16, 23, 4, 11, 16, 23, 4, 11, 16, 23,
   6, 10, 15, 21, 6, 10, 15, 21, 6, 10, 15, 21, 6, 10, 15, 21]

def md5F (i b c d : Nat) : Nat :=
  if i < 16 then Nat.lor (Nat.land b c) (Nat.land (Nat.xor b 4294967295) d)
  else if i < 32 then Nat.lor (Nat.land d b) (Nat.land (Nat.xor d 4294967295) c)
  else if i < 48 then Nat.xor (Nat.xor b c) d
  else Nat.xor c (Nat.lor b (Nat.xor d 4294967295))

def md5G (i : Nat) : Nat :=
  if i < 16 then i
  else if i < 32 then (5 * i + 1) % 16
  else if i < 48 then (3 * i + 5) % 16
  else 7 * i % 16

def md5Step (M : List Nat) (st : Nat × Nat × Nat × Nat) (i : Nat) :
    Nat × Nat × Nat × Nat :=
  let f := u32 (md5F i st.2.1 st.2.2.1 st.2.2.2 + st.1 + md5K.getD i 0 +
    M.getD (md5G i) 0)
  (st.2.2.2, u32 (st.2.1 + rotl32 f (md5S.getD i 0)), st.2.1, st.2.2.1)

def md5Block (st : Nat × Nat × Nat × Nat) (M : List Nat) : Nat × Nat × Nat × Nat :=
  let r := (List.range 64).foldl (md5Step M) st
  (u32 (st.1 + r.1), u32 (st.2.1 + r.2.1), u32 (st.2.2.1 + r.2.2.1),
   u32 (st.2.2.2 + r.2.2.2))

def md5Digest (bytes : List Nat) : List Nat :=
  let padded := md5pad bytes
  let blocks := (List.range (padded.length / 64)).map fun i =>
    (List.range 16).map fun j =>
      let b := fun k => padded.getD (64 * i + 4 * j + k) 0
      b 0 + 256 * b 1 + 65536 * b 2 + 16777216 * b 3
  let r := blocks.foldl md5Block (0x67452301, 0xefcdab89, 0x98badcfe, 0x10325476)
  ([r.1, r.2.1, r.2.2.1, r.2.2.2].map fun w =>
    (List.range 4).map fun i => w / 256 ^ i % 256).flatten

def hexDigit (n : Nat) : Char := if n < 10 then Char.ofNat (48 + n) else Char.ofNat (87 + n)

def md5hex (s : Str) : Str :=
  ((md5Digest (encodeUTF8 s)).map fun b => [hexDigit (b / 16), hexDigit (b % 16)]).flatten

/-- domain.replace("www.", ""): every (left-to-right, non-overlapping)
occurrence of www. is removed, anywhere in the domain. -/
def removeWWW : Str → Str
  | 'w' :: 'w' :: 'w' :: '.' :: t => removeWWW t
  | c :: t => c :: removeWWW t
  | [] => []

/-- path.rstrip("/"): all trailing slashes removed. -/
def rstripSlash (l : Str) : Str := (l.reverse.dropWhile (· == '/')).reverse

def isSafeFilenameChar (c : Char) : Bool :=
  c.isAlphanum || c == '_' || c == '-' || c == '.'

/-- the filename derivation of get_filename_for_url (the part after the
memo lookup); none models the ValueError that urlparse may raise. -/
def deriveFilename (u : Str) : Option Str :=
  let nu := normalize_url u
  (urlparseE nu).map fun p =>
    let domain := removeWWW p.netloc
    let pathHash := (md5hex p.path).take 8
    let filename :=
      if p.path ≠ [] ∧ p.path ≠ str "/" then
        let f := domain ++ (rstripSlash p.path).map (fun c => if c == '/' then '_' else c)
        if 100 < f.length then domain ++ '_' :: pathHash else f
      else domain ++ str "_index"
    (filename.map fun c => if isSafeFilenameChar c then c else '_') ++ str ".html"

def lookupS : List (Str × Str) → Str → Option Str
  | [], _ => none
  | (a, v) :: t, k => if a = k then some v else lookupS t k

/-- WebCrawler.get_filename_for_url with its memo map
(url_to_filename_map) made explicit: returns the filename and the updated
map. -/
def get_filename_for_url (m : List (Str × Str)) (url : Str) :
    Option (Str × List (Str × Str)) :=
  let nu := normalize_url url
  match lookupS m nu with
  | some f => some (f, m)
  | none => (deriveFilename url).map fun f => (f, m ++ [(nu, f)])

/-- the derivation rule exactly as claim C8 words it: the domain has only
a leading www. stripped. -/
def stripLeadingWWW (d : Str) : Str := if d.take 4 = str "www." then d.drop 4 else d

def specFilenameC8 (u : Str) : Option Str :=
  let nu := normalize_url u
  (urlparseE nu).map fun p =>
    let domain := stripLeadingWWW p.netloc
    let pathHash := (md5hex p.path).take 8
    let filename :=
      if p.path ≠ [] ∧ p.path ≠ str "/" then
        let f := domain ++ (rstripSlash p.path).map (fun c => if c == '/' then '_' else c)
        if 100 < f.length then domain ++ '_' :: pathHash else f
      else domain ++ str "_index"
    (filename.map fun c => if isSafeFilenameChar c then c else '_') ++ str ".html"

def sanitizeName (l : Str) : Str :=
  l.map fun c => if c.isAlphanum || c == '_' || c == '-' || c == '.' then c else '_'

/-- the derivation rule as amended: www. is removed everywhere in the
domain, not only as a leading prefix. -/
def amendedFilenameRule (u : Str) : Option Str :=
  (urlparseE (normalize_url u)).map fun p =>
    let domain := removeWWW p.netloc
    let base :=
      if p.path = [] ∨ p.path = str "/" then domain ++ str "_index"
      else
        let name := domain ++ (rstripSlash p.path).map fun c => if c == '/' then '_' else c
        if name.length ≤ 100 then name else domain ++ '_' :: (md5hex p.path).take 8
    sanitizeName base ++ str ".html"

/-- there is no valid scheme prefix before the first colon. -/
def NoSchemePrefix (w : Str) : Prop :=
  ∀ a b, w = a ++ ':' :: b → (∀ x ∈ a, (x == ':') = false) → validScheme a = false

/-! ### Reassembly of a fragmentless URL -/

def joinParams (pa pr : Str) : Str := if pr = [] then pa else pa ++ ';' :: pr

def slashFix (w : Str) : Str := if w ≠ [] ∧ w.head? ≠ some '/' then '/' :: w else w

/-- urlunparse with the path-with-params region w taken as one block. -/
def assemble (s n w q : Str) : Str :=
  let u2 :=
    if n ≠ [] ∨ (s ≠ [] ∧ s ∈ usesNetloc ∧ w.take 2 ≠ ['/', '/']) then
      '/' :: '/' :: (n ++ slashFix w)
    else w
  let u3 := if s = [] then u2 else s ++ ':' :: u2
  if q = [] then u3 else u3 ++ '?' :: q

def paramsPhase (s w : Str) : Str × Str :=
  if s ∈ usesParams ∧ ';' ∈ w then splitParamsFun w else (w, [])

/-- the shape facts that the params split leaves behind. -/
def ParamsFacts (s pa pr : Str) : Prop :=
  (pr = [] ∧ ¬(s ∈ usesParams ∧ ';' ∈ pa)) ∨
  (∃ x y, pa = x ++ '/' :: y ∧ (∀ c ∈ y, (c == ';') = false) ∧
    (∀ c ∈ y, (c == '/') = false) ∧ (∀ c ∈ pr, (c == '/') = false)) ∨
  ((∀ c ∈ pa, (c == '/') = false) ∧ (∀ c ∈ pa, (c == ';') = false) ∧
    (∀ c ∈ pr, (c == '/') = false))

/-- rejoining path and params after the params phase recovers the input,
with a nonempty path component. -/
def Rejoined (s W2 : Str) : Prop :=
  joinParams (paramsPhase s W2).1 (paramsPhase s W2).2 = W2 ∧ (paramsPhase s W2).1 ≠ []

/-! ### Fragment insensitivity: everything before the first # determines
the normalized URL -/

def dropFrag (p : URLParts) : URLParts := { p with fragment := [] }

/-! ### Theorems -/

theorem splitOnFirst_eq_self (p : Char → Bool) (l : Str)
    (h : ∀ c ∈ l, p c = false) : splitOnFirst p l = (l, none) := by
  induction l with
  | nil => rfl
  | cons c t ih =>
    have hc : p c = false := h c (by simp)
    simp only [splitOnFirst, hc, if_neg (by simp [hc] : ¬ p c = true)]
    have := ih (fun x hx => h x (by simp [hx]))
    simp [this]

theorem splitOnFirst_append_found (p : Char → Bool) (a : Str) (c : Char) (b : Str)
    (ha : ∀ x ∈ a, p x = false) (hc : p c = true) :
    splitOnFirst p (a ++ c :: b) = (a, some b) := by
  induction a with
  | nil => simp [splitOnFirst, hc]
  | cons x t ih =>
    have hx : p x = false := ha x (by simp)
    have ht := ih (fun y hy => ha y (by simp [hy]))
    simp only [List.cons_append, splitOnFirst,
      if_neg (by simp [hx] : ¬ p x = true)]
    simp only [List.append_eq] at ht ⊢
    rw [ht]

theorem splitOnFirst_found (p : Char → Bool) (l a b : Str)
    (h : splitOnFirst p l = (a, some b)) :
    (∀ c ∈ a, p c = false) ∧ ∃ c, p c = true ∧ l = a ++ c :: b := by
  induction l generalizing a with
  | nil => simp [splitOnFirst] at h
  | cons c t ih =>
    by_cases hc : p c = true
    · simp [splitOnFirst, hc] at h
      obtain ⟨rfl, rfl⟩ := h
      exact ⟨by simp, c, hc, by simp⟩
    · simp only [splitOnFirst, if_neg hc, Prod.mk.injEq] at h
      obtain ⟨h1, h2⟩ := h
      have hr : splitOnFirst p t = ((splitOnFirst p t).1, some b) :=
        Prod.ext rfl h2
      obtain ⟨hall, d, hd, hteq⟩ := ih (splitOnFirst p t).1 hr
      subst h1
      refine ⟨?_, d, hd, ?_⟩
      · intro x hx
        rcases List.mem_cons.mp hx with rfl | hx
        · simpa using hc
        · exact hall x hx
      · conv_lhs => rw [hteq]
        simp

theorem splitOnFirst_none (p : Char → Bool) (l a : Str)
    (h : splitOnFirst p l = (a, none)) : a = l ∧ ∀ c ∈ l, p c = false := by
  induction l generalizing a with
  | nil =>
    simp [splitOnFirst] at h
    simp [h]
  | cons c t ih =>
    by_cases hc : p c = true
    · simp [splitOnFirst, hc] at h
    · simp only [splitOnFirst, if_neg hc, Prod.mk.injEq] at h
      obtain ⟨h1, h2⟩ := h
      obtain ⟨ha, hall⟩ := ih (splitOnFirst p t).1 (Prod.ext rfl h2)
      subst h1
      refine ⟨by rw [ha], ?_⟩
      intro x hx
      rcases List.mem_cons.mp hx with rfl | hx
      · simpa using hc
      · exact hall x hx

theorem splitAtLast_append (p : Char → Bool) (a : Str) (c : Char) (b : Str)
    (hc : p c = true) (hb : ∀ x ∈ b, p x = false) :
    splitAtLast p (a ++ c :: b) = some (a, b) := by
  induction a with
  | nil =>
    have hbn : splitAtLast p b = none := by
      induction b with
      | nil => rfl
      | cons x t ih =>
        have hx : p x = false := hb x (by simp)
        have := ih (fun y hy => hb y (by simp [hy]))
        simp [splitAtLast, this, hx]
    simp [splitAtLast, hbn, hc]
  | cons x t ih =>
    simp only [List.cons_append, splitAtLast]
    rw [show t.append (c :: b) = t ++ c :: b from rfl, ih]

theorem splitAtLast_some (p : Char → Bool) (l a b : Str)
    (h : splitAtLast p l = some (a, b)) :
    ∃ c, p c = true ∧ l = a ++ c :: b ∧ ∀ x ∈ b, p x = false := by
  induction l generalizing a with
  | nil => simp [splitAtLast] at h
  | cons c t ih =>
    simp only [splitAtLast] at h
    cases ht : splitAtLast p t with
    | some r =>
      rw [ht] at h
      obtain ⟨a2, b2⟩ := r
      simp only [Option.some.injEq, Prod.mk.injEq] at h
      obtain ⟨h1, rfl⟩ := h
      obtain ⟨d, hd, rfl, hall⟩ := ih a2 ht
      subst h1
      exact ⟨d, hd, by simp, hall⟩
    | none =>
      rw [ht] at h
      by_cases hc : p c = true
      · simp [hc] at h
        obtain ⟨rfl, rfl⟩ := h
        refine ⟨c, hc, by simp, ?_⟩
        intro x hx
        -- every element of t satisfies ¬p, since splitAtLast p t = none
        clear ih
        induction t with
        | nil => simp at hx
        | cons y s ihs =>
          simp only [splitAtLast] at ht
          cases hys : splitAtLast p s with
          | some r => rw [hys] at ht; simp at ht
          | none =>
            rw [hys] at ht
            by_cases hy : p y = true
            · simp [hy] at ht
            · rcases List.mem_cons.mp hx with rfl | hx
              · simpa using hy
              · exact ihs hys hx
      · simp [hc] at h

theorem splitAtLast_none (p : Char → Bool) (l : Str)
    (h : splitAtLast p l = none) : ∀ x ∈ l, p x = false := by
  induction l with
  | nil => simp
  | cons c t ih =>
    simp only [splitAtLast] at h
    cases ht : splitAtLast p t with
    | some r => rw [ht] at h; obtain ⟨a, b⟩ := r; simp at h
    | none =>
      rw [ht] at h
      by_cases hc : p c = true
      · simp [hc] at h
      · intro x hx
        rcases List.mem_cons.mp hx with rfl | hx
        · simpa using hc
        · exact ih ht x hx

theorem netlocSpan_append (n d : Str)
    (hn : ∀ c ∈ n, isNetDelim c = false)
    (hd : d = [] ∨ ∃ c t, d = c :: t ∧ isNetDelim c = true) :
    netlocSpan (n ++ d) = (n, d) := by
  induction n with
  | nil =>
    rcases hd with rfl | ⟨c, t, rfl, hc⟩
    · rfl
    · simp [netlocSpan, hc]
  | cons x t ih =>
    have hx : isNetDelim x = false := hn x (by simp)
    have ht := ih (fun y hy => hn y (by simp [hy]))
    simp only [List.cons_append, netlocSpan,
      if_neg (by simp [hx] : ¬ isNetDelim x = true)]
    rw [show (t.append d) = t ++ d from rfl, ht]

theorem netlocSpan_join (l : Str) : (netlocSpan l).1 ++ (netlocSpan l).2 = l := by
  induction l with
  | nil => rfl
  | cons c t ih =>
    by_cases hc : isNetDelim c = true
    · simp [netlocSpan, hc]
    · simp only [netlocSpan, if_neg hc, List.cons_append, ih]

theorem netlocSpan_fst (l : Str) : ∀ c ∈ (netlocSpan l).1, isNetDelim c = false := by
  induction l with
  | nil => simp [netlocSpan]
  | cons c t ih =>
    by_cases hc : isNetDelim c = true
    · simp [netlocSpan, hc]
    · simp only [netlocSpan, if_neg hc]
      intro x hx
      rcases List.mem_cons.mp hx with rfl | hx
      · simpa using hc
      · exact ih x hx

theorem netlocSpan_snd (l : Str) :
    (netlocSpan l).2 = [] ∨ ∃ c t, (netlocSpan l).2 = c :: t ∧ isNetDelim c = true := by
  induction l with
  | nil => simp [netlocSpan]
  | cons c t ih =>
    by_cases hc : isNetDelim c = true
    · right; exact ⟨c, t, by simp [netlocSpan, hc], hc⟩
    · simpa only [netlocSpan, if_neg hc] using ih

example : normalize_url (str "http://example.com") = str "http://example.com/" := by decide

example : normalize_url (str "http://example.com/a/b?x=1#frag") =
    str "http://example.com/a/b?x=1" := by decide

example : normalize_url (str "HTTP://Example.com/p") = str "http://Example.com/p" := by decide

example : normalize_url (str "http://x?q") = str "http://x?q/" := by decide

example : normalize_url (str "http://x?q/") = str "http://x?q//" := by decide

example : normalize_url (str "//[a#1") = str "//[a#1" := by decide

example : normalize_url (str "http://h/x;y;z") = str "http://h/x;y;z" := by decide

example : urlparseE (str "http://h/a;b") =
    some ⟨str "http", str "h", str "/a", str "b", [], []⟩ := by decide

theorem prIteration_eq_spec (g : LinkGraph) (s : ScoreMap) :
    prIteration g s = specPRIteration g s := by
  unfold prIteration specPRIteration
  have hfun :
      (fun (m : ScoreMap) (p : Str × List Str) =>
        let ul := p.2.dedup
        if ul = [] then m
        else
          let w := getScore s p.1 * damping / (ul.length : ℚ)
          ul.foldl (fun m t => addScore m t w) m) =
      (fun (m : ScoreMap) (p : Str × List Str) =>
        let targets := p.2.dedup
        if 1 ≤ targets.length then
          targets.foldl
            (fun m t => addScore m t (getScore s p.1 * (85 / 100) / (targets.length : ℚ))) m
        else m) := by
    funext m p
    by_cases h : p.2.dedup = []
    · simp [h]
    · have hlen : 1 ≤ p.2.dedup.length := List.length_pos.mpr h
      simp [h, hlen, damping]
  rw [hfun]
  rfl

theorem cycleFixed : prIteration cycleGraph cycleThird = cycleThird := by
  norm_num [prIteration, cycleGraph, cycleThird, damping, getScore, lookupQ,
    addScore, str]
  decide

theorem cycleInit :
    cycleGraph.map (fun p => (p.1, 1 / (cycleGraph.length : ℚ))) = cycleThird := by
  norm_num [cycleGraph, cycleThird, str]

/-- Claim C1 (counterexample): on the scenario graph, find_orphaned_pages is
not the empty list (the root has no incoming link and is reported). -/
theorem C1_counterexample : find_orphaned_pages scenarioGraph ≠ [] := by decide

/-- Claim C1 (amended): on the scenario graph, find_orphaned_pages returns
exactly the root URL: both /a and /b receive incoming links, while the root
has zero incoming links and is orphaned. -/
theorem C1_orphans : find_orphaned_pages scenarioGraph = [xRoot] := by decide

/-- Claim C4: analyze_page_rank coincides with the reference definition
from the specification (for every non-empty graph, and in fact for every
graph), and on the 3-cycle A→B→C→A all three scores are equal to 1/3. -/
theorem C4_page_rank :
    (∀ g : LinkGraph, g ≠ [] → analyze_page_rank g = spec_page_rank g) ∧
    analyze_page_rank cycleGraph =
      [(str "A", 1 / 3), (str "B", 1 / 3), (str "C", 1 / 3)] := by
  constructor
  · intro g _
    unfold analyze_page_rank spec_page_rank
    rw [funext (prIteration_eq_spec g)]
  · show (prIteration cycleGraph)^[10]
      (cycleGraph.map (fun p => (p.1, 1 / (cycleGraph.length : ℚ)))) = _
    rw [cycleInit, Function.iterate_fixed cycleFixed]
    rfl

/-- Claim C4 witness: the equality of the two definitions evaluated on the
concrete scenario graph. -/
theorem C4_page_rank_witness :
    scenarioGraph ≠ [] ∧ analyze_page_rank scenarioGraph = spec_page_rank scenarioGraph :=
  ⟨by decide, C4_page_rank.1 scenarioGraph (by decide)⟩

/-- Claim C10: on the empty link graph every analyzer operation returns an
empty result (and in particular no 1/N is ever formed, the dict
comprehensions being empty). -/
theorem C10_empty_graph_total :
    analyze_page_rank ([] : LinkGraph) = [] ∧
    find_orphaned_pages ([] : LinkGraph) = [] ∧
    find_hubs ([] : LinkGraph) = [] ∧
    find_authorities ([] : LinkGraph) = [] := by decide

/-- Claim C9: for a non-empty graph, find_hubs returns exactly the keys
whose raw outbound-list length strictly exceeds
max (2 × average outbound length) 10. -/
theorem C9_hubs (g : LinkGraph) (hg : g ≠ []) (u : Str) :
    u ∈ find_hubs g ↔
      ∃ ls, (u, ls) ∈ g ∧ (ls.length : ℚ) > max (2 * avgOutbound g) 10 := by
  unfold find_hubs avgOutbound
  rw [if_neg hg]
  simp only [List.mem_map, List.mem_filter]
  constructor
  · rintro ⟨⟨a, ls⟩, ⟨hmem, hpred⟩, rfl⟩
    refine ⟨ls, hmem, ?_⟩
    have h := of_decide_eq_true hpred
    rw [mul_comm] at h
    exact h
  · rintro ⟨ls, hmem, hgt⟩
    refine ⟨(u, ls), ⟨hmem, ?_⟩, rfl⟩
    rw [mul_comm] at hgt
    exact decide_eq_true hgt

/-- Claim C9 witness: on a concrete graph whose first page has 25 outbound
links against an average of 25/3, that page is reported by find_hubs. -/
theorem C9_hubs_witness : hubGraph ≠ [] ∧ str "h" ∈ find_hubs hubGraph :=
  ⟨by decide,
    (C9_hubs hubGraph (by decide) (str "h")).mpr
      ⟨List.replicate 25 (str "t"), by decide, by norm_num [avgOutbound, hubGraph]⟩⟩

theorem process_url_core_inv (cfg : CrawlCfg) (world : FetchWorld) (st : CrawlState)
    (u : Str) (h : FetchInv st) :
    FetchInv (process_url_core cfg world st u).1 ∧
    (∀ x ∈ st.visited, x ∈ (process_url_core cfg world st u).1.visited) ∧
    (process_url_core cfg world st u).1.dispatchLog = st.dispatchLog := by
  cases hp : urlparseE u with
  | none =>
    simp only [process_url_core, hp]
    exact ⟨h, fun x hx => hx, trivial⟩
  | some p =>
    by_cases h1 : p.scheme = [] ∨ p.netloc = []
    · simp only [process_url_core, hp, if_pos h1]
      exact ⟨h, fun x hx => hx, trivial⟩
    · by_cases h2 : u ∈ st.visited
      · simp only [process_url_core, hp, if_neg h1, if_pos h2]
        exact ⟨h, fun x hx => hx, trivial⟩
      · have hvis : ∀ x ∈ st.visited, x ∈ st.visited ++ [u] :=
          fun x hx => List.mem_append_left _ hx
        have hlogOld : ∀ v ∈ st.fetchLog, v ∈ st.visited ++ [u] :=
          fun v hv => List.mem_append_left _ (h.2 v hv)
        have hnodup : (st.fetchLog ++ [u]).Nodup := by
          rw [List.nodup_append]
          refine ⟨h.1, List.nodup_singleton _, ?_⟩
          intro a ha hb
          rw [List.mem_singleton] at hb
          subst hb
          exact h2 (h.2 a ha)
        have hlogNew : ∀ v ∈ st.fetchLog ++ [u], v ∈ st.visited ++ [u] := by
          intro v hv
          rcases List.mem_append.mp hv with hv | hv
          · exact List.mem_append_left _ (h.2 v hv)
          · exact List.mem_append_right _ hv
        cases hc : (if cfg.savePath then world.cache u else CacheRes.miss) with
        | hitFail =>
          simp only [process_url_core, hp, if_neg h1, if_neg h2, hc]
          exact ⟨⟨h.1, hlogOld⟩, hvis, trivial⟩
        | hit links =>
          cases hf : filterLinks cfg (st.visited ++ [u]) links with
          | none =>
            simp only [process_url_core, hp, if_neg h1, if_neg h2, hc, hf]
            exact ⟨⟨h.1, hlogOld⟩, hvis, trivial⟩
          | some new =>
            simp only [process_url_core, hp, if_neg h1, if_neg h2, hc, hf]
            exact ⟨⟨h.1, hlogOld⟩, hvis, trivial⟩
        | miss =>
          cases hf : world.fetch u with
          | none =>
            simp only [process_url_core, hp, if_neg h1, if_neg h2, hc, hf]
            exact ⟨⟨hnodup, hlogNew⟩, hvis, trivial⟩
          | some links =>
            cases hfl : filterLinks cfg (st.visited ++ [u]) links with
            | none =>
              simp only [process_url_core, hp, if_neg h1, if_neg h2, hc, hf, hfl]
              exact ⟨⟨hnodup, hlogNew⟩, hvis, trivial⟩
            | some new =>
              simp only [process_url_core, hp, if_neg h1, if_neg h2, hc, hf, hfl]
              exact ⟨⟨hnodup, hlogNew⟩, hvis, trivial⟩

theorem processBatch_inv (cfg : CrawlCfg) (world : FetchWorld)
    (b : List (Str × Nat)) :
    ∀ st : CrawlState, FetchInv st → FetchInv (processBatch cfg world b st).1 := by
  induction b with
  | nil => intro st h; exact h
  | cons x rest ih =>
    intro st h
    obtain ⟨u, d⟩ := x
    simp only [processBatch]
    apply ih
    exact (process_url_core_inv cfg world
      { st with dispatchLog := st.dispatchLog ++ [(u, d)] } (normalize_url u) h).1

theorem crawlLoop_inv (cfg : CrawlCfg) (world : FetchWorld)
    (reorder : Nat → List (Str × Nat) → List (Str × Nat)) (fuel : Nat) :
    ∀ (round : Nat) (st : CrawlState) (queue : List (Str × Nat)), FetchInv st →
      FetchInv (crawlLoop cfg world reorder fuel round st queue) := by
  induction fuel with
  | zero => intro _ st _ h; exact h
  | succ n ih =>
    intro round st queue h
    cases queue with
    | nil => exact h
    | cons x q =>
      simp only [crawlLoop]
      by_cases hb : (selectBatch cfg st.visited (x :: q) []).1 = []
      · simp only [if_pos hb]; exact h
      · simp only [if_neg hb]
        exact ih _ _ _ (processBatch_inv cfg world _ st h)

/-- Claim C5: over any run of the crawler (any configuration, any fetch
and cache behaviour, any batch completion schedule, any fuel), the fetch
capability is invoked at most once per normalized URL, and every fetched
URL has been entered into the visited set. -/
theorem C5_at_most_one_fetch (cfg : CrawlCfg) (world : FetchWorld)
    (reorder : Nat → List (Str × Nat) → List (Str × Nat)) (fuel : Nat)
    (res : CrawlState) (h : crawl cfg world reorder fuel = some res) :
    res.fetchLog.Nodup ∧ ∀ u ∈ res.fetchLog, u ∈ res.visited := by
  unfold crawl at h
  cases hs : crawlSeed cfg.baseDomain with
  | none => rw [hs] at h; simp at h
  | some s =>
    rw [hs] at h
    simp only [Option.map_some', Option.some.injEq] at h
    subst h
    exact crawlLoop_inv cfg world reorder fuel 0 initialState _
      ⟨List.nodup_nil, by intro u hu; simp [initialState] at hu⟩

/-- Claim C5 witness: a concrete three-page run whose fetch log has no
duplicates. -/
theorem C5_witness :
    crawl cfgW worldW reorderW 4 = some ((crawl cfgW worldW reorderW 4).getD initialState) ∧
    ((crawl cfgW worldW reorderW 4).getD initialState).fetchLog.Nodup :=
  ⟨by decide, (C5_at_most_one_fetch cfgW worldW reorderW 4 _ (by decide)).1⟩

theorem process_url_core_dispatch (cfg : CrawlCfg) (world : FetchWorld)
    (st : CrawlState) (u : Str) :
    (process_url_core cfg world st u).1.dispatchLog = st.dispatchLog := by
  cases hp : urlparseE u with
  | none => simp only [process_url_core, hp]
  | some p =>
    by_cases h1 : p.scheme = [] ∨ p.netloc = []
    · simp only [process_url_core, hp, if_pos h1]
    · by_cases h2 : u ∈ st.visited
      · simp only [process_url_core, hp, if_neg h1, if_pos h2]
      · cases hc : (if cfg.savePath then world.cache u else CacheRes.miss) with
        | hitFail => simp only [process_url_core, hp, if_neg h1, if_neg h2, hc]
        | hit links =>
          cases hf : filterLinks cfg (st.visited ++ [u]) links with
          | none => simp only [process_url_core, hp, if_neg h1, if_neg h2, hc, hf]
          | some new => simp only [process_url_core, hp, if_neg h1, if_neg h2, hc, hf]
        | miss =>
          cases hf : world.fetch u with
          | none => simp only [process_url_core, hp, if_neg h1, if_neg h2, hc, hf]
          | some links =>
            cases hfl : filterLinks cfg (st.visited ++ [u]) links with
            | none => simp only [process_url_core, hp, if_neg h1, if_neg h2, hc, hf, hfl]
            | some new => simp only [process_url_core, hp, if_neg h1, if_neg h2, hc, hf, hfl]

theorem selectBatch_depth (cfg : CrawlCfg) (v : List Str) :
    ∀ (q acc : List (Str × Nat)), (∀ x ∈ acc, x.2 ≤ cfg.maxDepth) →
      ∀ x ∈ (selectBatch cfg v q acc).1, x.2 ≤ cfg.maxDepth := by
  intro q
  induction q with
  | nil =>
    intro acc hacc x hx
    exact hacc x (List.mem_reverse.mp hx)
  | cons hd tl ih =>
    intro acc hacc x hx
    obtain ⟨u, d⟩ := hd
    simp only [selectBatch] at hx
    by_cases hw : cfg.maxWorkers ≤ acc.length
    · rw [if_pos hw] at hx
      exact hacc x (List.mem_reverse.mp hx)
    · rw [if_neg hw] at hx
      by_cases hv : u ∈ v ∨ u ∈ acc.map Prod.fst
      · rw [if_pos hv] at hx
        exact ih acc hacc x hx
      · rw [if_neg hv] at hx
        by_cases hdep : cfg.maxDepth < d
        · rw [if_pos hdep] at hx
          exact ih acc hacc x hx
        · rw [if_neg hdep] at hx
          refine ih ((u, d) :: acc) ?_ x hx
          intro y hy
          rcases List.mem_cons.mp hy with rfl | hy
          · exact Nat.le_of_not_lt hdep
          · exact hacc y hy

theorem processBatch_depth (cfg : CrawlCfg) (world : FetchWorld)
    (b : List (Str × Nat)) (hb : ∀ x ∈ b, x.2 ≤ cfg.maxDepth) :
    ∀ st : CrawlState, DepthOK cfg st → DepthOK cfg (processBatch cfg world b st).1 := by
  induction b with
  | nil => intro st h; exact h
  | cons x rest ih =>
    intro st h
    obtain ⟨u, d⟩ := x
    simp only [processBatch]
    refine ih (fun y hy => hb y (List.mem_cons_of_mem _ hy)) _ ?_
    intro y hy
    have h3 : (process_url cfg world
        { st with dispatchLog := st.dispatchLog ++ [(u, d)] } u d).1.dispatchLog =
        st.dispatchLog ++ [(u, d)] :=
      process_url_core_dispatch cfg world _ (normalize_url u)
    rw [h3] at hy
    rcases List.mem_append.mp hy with hy | hy
    · exact h y hy
    · rw [List.mem_singleton] at hy
      subst hy
      exact hb (u, d) (List.mem_cons_self _ _)

theorem crawlLoop_depth (cfg : CrawlCfg) (world : FetchWorld)
    (reorder : Nat → List (Str × Nat) → List (Str × Nat))
    (hr : ∀ i b, ∀ x ∈ reorder i b, x ∈ b) (fuel : Nat) :
    ∀ (round : Nat) (st : CrawlState) (queue : List (Str × Nat)), DepthOK cfg st →
      DepthOK cfg (crawlLoop cfg world reorder fuel round st queue) := by
  induction fuel with
  | zero => intro _ st _ h; exact h
  | succ n ih =>
    intro round st queue h
    cases queue with
    | nil => exact h
    | cons x q =>
      simp only [crawlLoop]
      by_cases hb : (selectBatch cfg st.visited (x :: q) []).1 = []
      · simp only [if_pos hb]; exact h
      · simp only [if_neg hb]
        refine ih _ _ _ ?_
        refine processBatch_depth cfg world _ ?_ st h
        intro y hy
        exact selectBatch_depth cfg st.visited (x :: q) [] (by simp) y
          (hr round _ y hy)

/-- Claim C6: in any run, every task submitted to a worker has depth at
most max_depth (over-deep tasks are discarded by batch selection and never
dispatched), for every completion schedule that runs a subset of each
dispatched batch. -/
theorem C6_depth_bound (cfg : CrawlCfg) (world : FetchWorld)
    (reorder : Nat → List (Str × Nat) → List (Str × Nat)) (fuel : Nat)
    (res : CrawlState) (hr : ∀ i b, ∀ x ∈ reorder i b, x ∈ b)
    (h : crawl cfg world reorder fuel = some res) :
    ∀ x ∈ res.dispatchLog, x.2 ≤ cfg.maxDepth := by
  unfold crawl at h
  cases hs : crawlSeed cfg.baseDomain with
  | none => rw [hs] at h; simp at h
  | some s =>
    rw [hs] at h
    simp only [Option.map_some', Option.some.injEq] at h
    subst h
    exact crawlLoop_depth cfg world reorder hr fuel 0 initialState _
      (by intro y hy; simp [initialState] at hy)

/-- Claim C6 witness: the depth bound evaluated on the concrete three-page
run (max_depth = 2). -/
theorem C6_depth_bound_witness :
    (∀ i b, ∀ x ∈ reorderW i b, x ∈ b) ∧
    ∀ x ∈ ((crawl cfgW worldW reorderW 4).getD initialState).dispatchLog,
      x.2 ≤ cfgW.maxDepth :=
  ⟨fun _ _ _ hx => hx,
    C6_depth_bound cfgW worldW reorderW 4 _ (fun _ _ _ hx => hx) (by decide)⟩

/-! ### Failure containment (claim C7) -/

theorem lookupG_setEntry (g : List (Str × List Str)) (k : Str) (v : List Str) :
    lookupG (setEntry g k v) k = some v := by
  induction g with
  | nil => simp [setEntry, lookupG]
  | cons hd t ih =>
    obtain ⟨a, w⟩ := hd
    by_cases hak : a = k
    · simp [setEntry, lookupG, hak]
    · simp only [setEntry, if_neg hak, lookupG]
      exact ih

/-- Claim C7: when the fetch capability fails on a fresh valid URL (and
the cache does not serve it), process_url returns the empty list instead
of propagating the exception, and the LinkGraph entry for the URL remains
the empty list. -/
theorem C7_fetch_failure_contained (cfg : CrawlCfg) (world : FetchWorld)
    (st : CrawlState) (url : Str) (depth : Nat) (p : URLParts)
    (hp : urlparseE (normalize_url url) = some p)
    (hval : ¬ (p.scheme = [] ∨ p.netloc = []))
    (hnv : normalize_url url ∉ st.visited)
    (hc : (if cfg.savePath then world.cache (normalize_url url) else CacheRes.miss) =
      CacheRes.miss)
    (hf : world.fetch (normalize_url url) = none) :
    (process_url cfg world st url depth).2 = [] ∧
    lookupG (process_url cfg world st url depth).1.link_structure
      (normalize_url url) = some [] := by
  simp only [process_url, process_url_core, hp, if_neg hval, if_neg hnv, hc, hf]
  exact ⟨trivial, lookupG_setEntry _ _ _⟩

/-- Claim C7 witness: the failing fetch evaluated on a concrete URL from
the initial state. -/
theorem C7_witness :
    (process_url cfg7 world7 initialState (str "https://x.test/") 1).2 = [] ∧
    lookupG (process_url cfg7 world7 initialState (str "https://x.test/") 1).1.link_structure
      (normalize_url (str "https://x.test/")) = some [] :=
  C7_fetch_failure_contained cfg7 world7 initialState (str "https://x.test/") 1
    ⟨str "https", str "x.test", str "/", [], [], []⟩
    (by decide) (by decide) (by decide) (by decide) (by decide)

/-- Claim C2 (counterexample): for the seed http://example.com/path?q=1,
crawl() does not seed the frontier with the normalized seed URL — the path
and query are dropped and the scheme forced to https. -/
theorem C2_counterexample :
    crawlInitQueue (str "http://example.com/path?q=1") ≠
      some [(normalize_url (str "http://example.com/path?q=1"), 1)] := by decide

/-- Claim C2 (amended): crawl() always initializes the frontier with
exactly the single amended seed task at depth 1; and for a bare
https://host seed (empty path, no query) the original property does hold:
the queue carries the normalized seed URL itself. -/
theorem C2_seed_queue :
    (∀ s, crawlInitQueue s = (amendedSeedTask s).map fun t => [t]) ∧
    crawlInitQueue (str "https://example.com") =
      some [(normalize_url (str "https://example.com"), 1)] := by
  constructor
  · intro s
    unfold crawlInitQueue amendedSeedTask mkBaseDomain crawlSeed
    cases hs : urlparseE s with
    | none => rfl
    | some p =>
      cases hn : urlparseE p.netloc with
      | none => simp [hs, hn]
      | some q => simp [hs, hn]
  · decide

theorem lookupS_append_self (m : List (Str × Str)) (k : Str) (v : Str)
    (h : lookupS m k = none) : lookupS (m ++ [(k, v)]) k = some v := by
  induction m with
  | nil => simp [lookupS]
  | cons hd t ih =>
    obtain ⟨a, w⟩ := hd
    by_cases hak : a = k
    · simp [lookupS, hak] at h
    · simp only [lookupS, if_neg hak] at h
      simp only [List.cons_append, lookupS, if_neg hak]
      exact ih h

/-- Claim C8 (counterexample): for https://a.www.com/x the filename
returned by get_filename_for_url is not the one given by the claimed
derivation rule (which strips only a leading www.): the code removes
every occurrence of www. from the domain. -/
theorem C8_counterexample :
    (get_filename_for_url [] (str "https://a.www.com/x")).map Prod.fst ≠
      specFilenameC8 (str "https://a.www.com/x") := by decide

/-- Claim C8 (amended): get_filename_for_url is deterministic (a second
call with the map produced by the first returns the identical string and
map), the derivation equals the rule amended to remove every occurrence
of www. from the domain, and https://example.com/a/b/ maps to
example.com_a_b.html. -/
theorem C8_filename :
    (∀ m url f m2, get_filename_for_url m url = some (f, m2) →
      get_filename_for_url m2 url = some (f, m2)) ∧
    (∀ u, deriveFilename u = amendedFilenameRule u) ∧
    deriveFilename (str "https://example.com/a/b/") =
      some (str "example.com_a_b.html") := by
  refine ⟨?_, ?_, by decide⟩
  · intro m url f m2 h
    simp only [get_filename_for_url] at h ⊢
    cases hl : lookupS m (normalize_url url) with
    | some f0 =>
      simp only [hl, Option.some.injEq, Prod.mk.injEq] at h
      obtain ⟨rfl, rfl⟩ := h
      simp [hl]
    | none =>
      simp only [hl] at h
      cases hd : deriveFilename url with
      | none => simp [hd] at h
      | some f0 =>
        simp only [hd, Option.map_some', Option.some.injEq, Prod.mk.injEq] at h
        obtain ⟨rfl, rfl⟩ := h
        simp [lookupS_append_self m (normalize_url url) f0 hl]
  · intro u
    unfold deriveFilename amendedFilenameRule
    cases hp : urlparseE (normalize_url u) with
    | none => simp only [hp, Option.map_none']
    | some p =>
      simp only [hp, Option.map_some', Option.some.injEq]
      by_cases hpath : p.path = [] ∨ p.path = str "/"
      · have h1 : ¬ (p.path ≠ [] ∧ p.path ≠ str "/") := by tauto
        simp only [if_neg h1, if_pos hpath, sanitizeName, isSafeFilenameChar]
      · have h1 : p.path ≠ [] ∧ p.path ≠ str "/" := by tauto
        by_cases hlen : 100 <
            (removeWWW p.netloc ++
              (rstripSlash p.path).map (fun c => if c == '/' then '_' else c)).length
        · have h2 : ¬ (removeWWW p.netloc ++
              (rstripSlash p.path).map (fun c => if c == '/' then '_' else c)).length ≤ 100 :=
            Nat.not_le.mpr hlen
          simp only [if_pos h1, if_neg hpath, if_pos hlen, if_neg h2,
            sanitizeName, isSafeFilenameChar]
        · have h2 : (removeWWW p.netloc ++
              (rstripSlash p.path).map (fun c => if c == '/' then '_' else c)).length ≤ 100 :=
            Nat.le_of_not_lt hlen
          simp only [if_pos h1, if_neg hpath, if_neg hlen, if_pos h2,
            sanitizeName, isSafeFilenameChar]

/-- Claim C8 witness: determinism evaluated on a concrete URL — the
first call fills the memo and the second returns the identical result. -/
theorem C8_filename_witness :
    get_filename_for_url [] (str "https://example.com/a/b/") =
      some (str "example.com_a_b.html",
        [(str "https://example.com/a/b/", str "example.com_a_b.html")]) ∧
    get_filename_for_url
        [(str "https://example.com/a/b/", str "example.com_a_b.html")]
        (str "https://example.com/a/b/") =
      some (str "example.com_a_b.html",
        [(str "https://example.com/a/b/", str "example.com_a_b.html")]) :=
  ⟨by decide, C8_filename.1 [] (str "https://example.com/a/b/") _ _ (by decide)⟩

/-! ## Character-level facts for the idempotence proof (claim C3) -/

theorem charToNat_ofNat (n : Nat) (h : n.isValidChar) : (Char.ofNat n).toNat = n := by
  simp [Char.ofNat, dif_pos h, Char.ofNatAux, Char.toNat, UInt32.toNat, BitVec.toNat_ofNatLt]

theorem charIsUpper_iff (c : Char) : c.isUpper = true ↔ 65 ≤ c.toNat ∧ c.toNat ≤ 90 := by
  simp [Char.isUpper, Char.toNat, UInt32.le_def, BitVec.le_def, UInt32.toNat]

theorem charIsLower_iff (c : Char) : c.isLower = true ↔ 97 ≤ c.toNat ∧ c.toNat ≤ 122 := by
  simp [Char.isLower, Char.toNat, UInt32.le_def, BitVec.le_def, UInt32.toNat]

theorem charIsDigit_iff (c : Char) : c.isDigit = true ↔ 48 ≤ c.toNat ∧ c.toNat ≤ 57 := by
  simp [Char.isDigit, Char.toNat, UInt32.le_def, BitVec.le_def, UInt32.toNat]

theorem charEq_iff_toNat (c d : Char) : c = d ↔ c.toNat = d.toNat := by
  constructor
  · rintro rfl; rfl
  · intro h
    apply Char.ext
    exact UInt32.toNat.inj h

theorem toLower_eq (c : Char) :
    c.toLower = if 65 ≤ c.toNat ∧ c.toNat ≤ 90 then Char.ofNat (c.toNat + 32) else c := rfl

theorem toLower_toNat (c : Char) :
    c.toLower.toNat = if 65 ≤ c.toNat ∧ c.toNat ≤ 90 then c.toNat + 32 else c.toNat := by
  rw [toLower_eq]
  by_cases h : 65 ≤ c.toNat ∧ c.toNat ≤ 90
  · rw [if_pos h, if_pos h, charToNat_ofNat]
    exact Or.inl (by omega)
  · rw [if_neg h, if_neg h]

theorem isSchemeChar_iff (c : Char) :
    isSchemeChar c = true ↔
      (65 ≤ c.toNat ∧ c.toNat ≤ 90) ∨ (97 ≤ c.toNat ∧ c.toNat ≤ 122) ∨
      (48 ≤ c.toNat ∧ c.toNat ≤ 57) ∨ c.toNat = 43 ∨ c.toNat = 45 ∨ c.toNat = 46 := by
  have h43 : ('+' : Char).toNat = 43 := rfl
  have h45 : ('-' : Char).toNat = 45 := rfl
  have h46 : ('.' : Char).toNat = 46 := rfl
  simp [isSchemeChar, Char.isAlphanum, Char.isAlpha, charIsUpper_iff, charIsLower_iff,
    charIsDigit_iff, beq_iff_eq, charEq_iff_toNat, h43, h45, h46]
  tauto

theorem isAlpha_iff (c : Char) :
    c.isAlpha = true ↔ (65 ≤ c.toNat ∧ c.toNat ≤ 90) ∨ (97 ≤ c.toNat ∧ c.toNat ≤ 122) := by
  simp [Char.isAlpha, charIsUpper_iff, charIsLower_iff]

theorem isSchemeChar_toLower (c : Char) (h : isSchemeChar c = true) :
    isSchemeChar c.toLower = true := by
  rw [isSchemeChar_iff] at h ⊢
  rw [toLower_toNat]
  by_cases hu : 65 ≤ c.toNat ∧ c.toNat ≤ 90
  · rw [if_pos hu]; omega
  · rw [if_neg hu]; omega

theorem isAlpha_toLower (c : Char) (h : c.isAlpha = true) : c.toLower.isAlpha = true := by
  rw [isAlpha_iff] at h ⊢
  rw [toLower_toNat]
  by_cases hu : 65 ≤ c.toNat ∧ c.toNat ≤ 90
  · rw [if_pos hu]; omega
  · rw [if_neg hu]; omega

theorem toLower_idem (c : Char) : c.toLower.toLower = c.toLower := by
  rw [charEq_iff_toNat, toLower_toNat, toLower_toNat]
  split_ifs <;> omega

theorem isSchemeChar_toNat_ne (c : Char) (h : isSchemeChar c = true) (m : Nat)
    (hm : m < 43 ∨ m = 44 ∨ m = 47 ∨ (58 ≤ m ∧ m ≤ 64) ∨ (91 ≤ m ∧ m ≤ 96) ∨ 123 ≤ m) :
    c.toNat ≠ m := by
  rw [isSchemeChar_iff] at h
  omega

theorem validScheme_map_toLower (s : Str) (h : validScheme s = true) :
    validScheme (s.map Char.toLower) = true := by
  cases s with
  | nil => simp [validScheme] at h
  | cons c t =>
    simp only [validScheme, Bool.and_eq_true, List.all_eq_true] at h
    obtain ⟨h1, h2⟩ := h
    simp only [List.map_cons, validScheme, Bool.and_eq_true, List.all_eq_true]
    refine ⟨isAlpha_toLower c h1, ?_⟩
    intro x hx
    rw [← List.map_cons] at hx
    obtain ⟨y, hy, rfl⟩ := List.mem_map.mp hx
    exact isSchemeChar_toLower y (h2 y hy)

theorem map_toLower_idem (s : Str) : (s.map Char.toLower).map Char.toLower = s.map Char.toLower := by
  rw [List.map_map]
  apply List.map_congr_left
  intro c _
  exact toLower_idem c

theorem validScheme_all (s : Str) (h : validScheme s = true) :
    ∀ c ∈ s, isSchemeChar c = true := by
  cases s with
  | nil => simp [validScheme] at h
  | cons c t =>
    simp only [validScheme, Bool.and_eq_true, List.all_eq_true] at h
    exact h.2

theorem validScheme_ne_nil (s : Str) (h : validScheme s = true) : s ≠ [] := by
  cases s with
  | nil => simp [validScheme] at h
  | cons c t => simp

theorem validScheme_head_alpha (s : Str) (h : validScheme s = true) :
    ∀ c t, s = c :: t → c.isAlpha = true := by
  intro c t hs
  subst hs
  simp only [validScheme, Bool.and_eq_true] at h
  exact h.1

/-! ### Scheme-detection lemmas -/

theorem splitOnFirst_append_left (p : Char → Bool) (x y : Str)
    (hx : ∀ c ∈ x, p c = false) :
    splitOnFirst p (x ++ y) = (x ++ (splitOnFirst p y).1, (splitOnFirst p y).2) := by
  induction x with
  | nil => simp
  | cons c t ih =>
    have hc : p c = false := hx c (by simp)
    have ht := ih (fun d hd => hx d (by simp [hd]))
    simp only [List.cons_append, splitOnFirst,
      if_neg (by simp [hc] : ¬ p c = true)]
    rw [show (t.append y) = t ++ y from rfl, ht]

theorem splitOnFirst_of_mem (p : Char → Bool) (l : Str) (c : Char)
    (hc : c ∈ l) (hp : p c = true) : ∃ a b, splitOnFirst p l = (a, some b) := by
  cases h : splitOnFirst p l with
  | mk a ob =>
    cases ob with
    | some b => exact ⟨a, b, rfl⟩
    | none =>
      obtain ⟨-, hall⟩ := splitOnFirst_none p l a h
      rw [hall c hc] at hp
      simp at hp

theorem validScheme_false_of_mem (a : Str) (c : Char) (hc : c ∈ a)
    (h : isSchemeChar c = false) : validScheme a = false := by
  cases ha : validScheme a with
  | false => rfl
  | true =>
    rw [validScheme_all a ha c hc] at h
    simp at h

theorem nsp_nil : NoSchemePrefix [] := by
  intro a b h
  simp at h

theorem nsp_head_not_alpha (w : Str)
    (h : ∀ c t, w = c :: t → c.isAlpha = false) : NoSchemePrefix w := by
  intro a b hw _
  cases a with
  | nil => rfl
  | cons c t =>
    have hc : c.isAlpha = false := h c (t ++ ':' :: b) (by simpa using hw)
    simp [validScheme, hc]

theorem nsp_append_of_nsp (w t : Str) (h : NoSchemePrefix (w ++ t)) :
    NoSchemePrefix w := by
  intro a b hw ha
  exact h a (b ++ t) (by rw [hw]; simp) ha

theorem splitScheme_of_nsp (u : Str) (h : NoSchemePrefix u) :
    splitScheme u = ([], u) := by
  unfold splitScheme
  cases hsp : splitOnFirst (· == ':') u with
  | mk pre ob =>
    cases ob with
    | none => rfl
    | some rest =>
      obtain ⟨hall, c, hc, hu⟩ := splitOnFirst_found _ u pre rest hsp
      have hcc : c = ':' := by simpa using hc
      subst hcc
      simp [h pre rest hu hall]

theorem nsp_of_splitScheme_fst_nil (u : Str) (h : (splitScheme u).1 = []) :
    NoSchemePrefix u := by
  intro a b hu ha
  cases hv : validScheme a with
  | false => rfl
  | true =>
    exfalso
    have hsp : splitOnFirst (· == ':') u = (a, some b) := by
      rw [hu]
      exact splitOnFirst_append_found _ a ':' b ha (by simp)
    unfold splitScheme at h
    rw [hsp] at h
    simp only [hv, if_true] at h
    have : a = [] := by
      cases a with
      | nil => rfl
      | cons c t => simp at h
    subst this
    simp [validScheme] at hv

theorem splitScheme_of_good (s r : Str) (hv : validScheme s = true)
    (hl : s.map Char.toLower = s) : splitScheme (s ++ ':' :: r) = (s, r) := by
  have hnc : ∀ x ∈ s, ((x == ':') = false) := by
    intro x hx
    have := isSchemeChar_toNat_ne x (validScheme_all s hv x hx) 58 (by omega)
    simp only [beq_eq_false_iff_ne, ne_eq]
    intro hxc
    exact this (by rw [hxc]; rfl)
  unfold splitScheme
  rw [splitOnFirst_append_found _ s ':' r hnc (by simp)]
  simp [hv, hl]

/-- splitScheme either finds nothing (and the input has no valid scheme
prefix) or strips a valid scheme. -/
theorem splitScheme_cases (u : Str) :
    (splitScheme u = ([], u) ∧ NoSchemePrefix u) ∨
    (∃ pre rest, validScheme pre = true ∧
      splitScheme u = (pre.map Char.toLower, rest) ∧ u = pre ++ ':' :: rest) := by
  cases hsp : splitOnFirst (· == ':') u with
  | mk pre ob =>
    cases ob with
    | none =>
      left
      obtain ⟨ha, hall⟩ := splitOnFirst_none _ u pre hsp
      constructor
      · unfold splitScheme; rw [hsp]
      · intro a b hu _
        exfalso
        have hmem : (':' : Char) ∈ u := by rw [hu]; simp
        have := hall ':' hmem
        simp at this
    | some rest =>
      obtain ⟨hall, c, hc, hu⟩ := splitOnFirst_found _ u pre rest hsp
      have hcc : c = ':' := by simpa using hc
      subst hcc
      cases hv : validScheme pre with
      | true =>
        right
        refine ⟨pre, rest, hv, ?_, hu⟩
        unfold splitScheme
        rw [hsp]
        simp [hv]
      | false =>
        left
        constructor
        · unfold splitScheme
          rw [hsp]
          simp [hv]
        · intro a b hu2 ha2
          have hsp2 : splitOnFirst (· == ':') u = (a, some b) := by
            rw [hu2]
            exact splitOnFirst_append_found _ a ':' b ha2 (by simp)
          rw [hsp] at hsp2
          simp only [Prod.mk.injEq, Option.some.injEq] at hsp2
          obtain ⟨rfl, rfl⟩ := hsp2
          exact hv

theorem urlunparse_eq_assemble (s n pa pr q : Str) :
    urlunparse s n pa pr q [] = assemble s n (joinParams pa pr) q := by
  unfold urlunparse assemble joinParams slashFix
  simp only [List.cons_append]
  rfl

theorem slashFix_cons (w : Str) (hw : w ≠ []) : ∃ t, slashFix w = '/' :: t := by
  unfold slashFix
  cases w with
  | nil => simp at hw
  | cons c t =>
    by_cases hc : c = '/'
    · subst hc
      simp
    · rw [if_pos ⟨by simp, by simpa using hc⟩]
      exact ⟨c :: t, rfl⟩

theorem slashFix_eq_self (w : Str) (h : ∃ t, w = '/' :: t) : slashFix w = w := by
  obtain ⟨t, rfl⟩ := h
  simp [slashFix]

theorem slashFix_mem (w : Str) : ∀ c ∈ slashFix w, c = '/' ∨ c ∈ w := by
  unfold slashFix
  by_cases h : w ≠ [] ∧ w.head? ≠ some '/'
  · rw [if_pos h]
    intro c hc
    rcases List.mem_cons.mp hc with rfl | hc
    · exact Or.inl rfl
    · exact Or.inr hc
  · rw [if_neg h]
    intro c hc
    exact Or.inr hc

theorem slashFix_take2 (w : Str) (hw : w ≠ []) (h2 : w.take 2 ≠ ['/', '/']) :
    (slashFix w).take 2 ≠ ['/', '/'] := by
  unfold slashFix
  cases w with
  | nil => simp at hw
  | cons c t =>
    by_cases hc : c = '/'
    · subst hc
      simp only [List.head?_cons, ne_eq, not_true_eq_false, and_false, if_neg,
        not_false_eq_true]
      exact h2
    · rw [if_pos ⟨by simp, by simpa using hc⟩]
      cases t with
      | nil => simp [List.take, hc]
      | cons d t2 => simp [List.take, hc]

/-- parsing an assembled URL whose netloc branch was taken recovers
scheme, netloc, slash-fixed path block and query, with no params and no
fragment. -/
theorem urlsplitE_assembled_netloc (s n W q : Str)
    (hs : s = [] ∨ (validScheme s = true ∧ s.map Char.toLower = s))
    (hn : ∀ c ∈ n, isNetDelim c = false)
    (hbr : ('[' ∈ n ↔ ']' ∈ n))
    (hW : ∀ c ∈ W, (c == '#') = false ∧ (c == '?') = false)
    (hq : ∀ c ∈ q, (c == '#') = false)
    (hWne : W ≠ [])
    (hcond : n ≠ [] ∨ (s ≠ [] ∧ s ∈ usesNetloc ∧ W.take 2 ≠ ['/', '/'])) :
    urlsplitE (assemble s n W q) = some ⟨s, n, slashFix W, [], q, []⟩ := by
  obtain ⟨fx, hfx⟩ := slashFix_cons W hWne
  have hD_nohash : ∀ c ∈ slashFix W ++ (if q = [] then [] else '?' :: q),
      (c == '#') = false := by
    intro c hc
    rcases List.mem_append.mp hc with h1 | h2
    · rcases slashFix_mem W c h1 with rfl | hcw
      · rfl
      · exact (hW c hcw).1
    · by_cases hqq : q = []
      · rw [if_pos hqq] at h2; simp at h2
      · rw [if_neg hqq] at h2
        rcases List.mem_cons.mp h2 with rfl | hcq
        · rfl
        · exact hq c hcq
  have hW_noq : ∀ c ∈ slashFix W, (c == '?') = false := by
    intro c hc
    rcases slashFix_mem W c hc with rfl | hcw
    · rfl
    · exact (hW c hcw).2
  have hasm : assemble s n W q =
      (if s = [] then [] else s ++ [':']) ++
        '/' :: '/' :: (n ++ (slashFix W ++ (if q = [] then [] else '?' :: q))) := by
    unfold assemble
    rw [if_pos hcond]
    by_cases hsnil : s = []
    · by_cases hqq : q = []
      · simp [hsnil, hqq]
      · simp [hsnil, hqq, List.append_assoc]
    · by_cases hqq : q = []
      · simp [hsnil, hqq]
      · simp [hsnil, hqq, List.append_assoc]
  have hscheme : splitScheme (assemble s n W q) =
      (s, '/' :: '/' :: (n ++ (slashFix W ++ (if q = [] then [] else '?' :: q)))) := by
    rcases hs with hsnil | ⟨hv, hl⟩
    · rw [hasm, if_pos hsnil, hsnil]
      simp only [List.nil_append]
      exact splitScheme_of_nsp _ (nsp_head_not_alpha _ (by
        intro c t hct
        have : c = '/' := by
          have := congrArg (List.head?) hct
          simpa using this.symm
        subst this
        rfl))
    · have hsnil : s ≠ [] := validScheme_ne_nil s hv
      rw [hasm, if_neg hsnil]
      rw [show (s ++ [':']) ++
          '/' :: '/' :: (n ++ (slashFix W ++ (if q = [] then [] else '?' :: q))) =
          s ++ ':' :: ('/' :: '/' :: (n ++ (slashFix W ++ (if q = [] then [] else '?' :: q))))
          from by simp]
      exact splitScheme_of_good s _ hv hl
  have hs1 : (splitScheme (assemble s n W q)).1 = s := by rw [hscheme]
  have hs2 : (splitScheme (assemble s n W q)).2 =
      '/' :: '/' :: (n ++ (slashFix W ++ (if q = [] then [] else '?' :: q))) := by
    rw [hscheme]
  unfold urlsplitE
  rw [hs1, hs2]
  rw [if_pos (by simp [List.take])]
  rw [show ('/' :: '/' :: (n ++ (slashFix W ++ (if q = [] then [] else '?' :: q)))).drop 2 =
      n ++ (slashFix W ++ (if q = [] then [] else '?' :: q)) from by simp]
  rw [netlocSpan_append n _ hn (Or.inr ⟨'/', fx ++ (if q = [] then [] else '?' :: q),
    by rw [hfx]; simp, rfl⟩)]
  show urlsplitCore s n (slashFix W ++ (if q = [] then [] else '?' :: q)) = _
  unfold urlsplitCore
  rw [if_pos hbr]
  rw [splitOnFirst_eq_self _ _ hD_nohash]
  by_cases hqq : q = []
  · rw [if_pos hqq] at hD_nohash ⊢
    rw [List.append_nil]
    simp [splitOnFirst_eq_self _ _ hW_noq, hqq]
  · rw [if_neg hqq]
    simp [splitOnFirst_append_found _ _ '?' q hW_noq (by rfl)]

theorem nsp_append_query (W q : Str) (h : NoSchemePrefix W) :
    NoSchemePrefix (W ++ '?' :: q) := by
  apply nsp_of_splitScheme_fst_nil
  cases hsp : splitOnFirst (· == ':') W with
  | mk w1 ob =>
    cases ob with
    | some w2 =>
      obtain ⟨hall, c, hc, hWe⟩ := splitOnFirst_found _ W w1 w2 hsp
      have hcc : c = ':' := by simpa using hc
      subst hcc
      have hv : validScheme w1 = false := h w1 w2 hWe hall
      have hsp3 : splitOnFirst (· == ':') (W ++ '?' :: q) = (w1, some (w2 ++ '?' :: q)) := by
        rw [hWe]
        rw [show (w1 ++ ':' :: w2) ++ '?' :: q = w1 ++ ':' :: (w2 ++ '?' :: q) from by simp]
        exact splitOnFirst_append_found _ w1 ':' _ hall (by simp)
      unfold splitScheme
      rw [hsp3]
      simp [hv]
    | none =>
      obtain ⟨heq, hall⟩ := splitOnFirst_none _ W w1 hsp
      have hleft := splitOnFirst_append_left (· == ':') W ('?' :: q) hall
      cases hsp2 : splitOnFirst (· == ':') ('?' :: q) with
      | mk x oy =>
        cases oy with
        | none =>
          unfold splitScheme
          rw [hleft, hsp2]
        | some y =>
          obtain ⟨hallx, c, hc, hxq⟩ := splitOnFirst_found _ _ x y hsp2
          have hcc : c = ':' := by simpa using hc
          subst hcc
          cases x with
          | nil => simp at hxq
          | cons d x2 =>
            have hd : d = '?' := by
              have := congrArg List.head? hxq
              simpa using this.symm
            have hvx : validScheme (W ++ d :: x2) = false :=
              validScheme_false_of_mem _ '?' (by rw [hd]; simp) (by decide)
            unfold splitScheme
            rw [hleft, hsp2]
            simp [hvx]

theorem take2_append_ne (W qp : Str) (h : W.take 2 ≠ ['/', '/'])
    (hqp : qp = [] ∨ ∃ q, qp = '?' :: q) : (W ++ qp).take 2 ≠ ['/', '/'] := by
  cases W with
  | nil =>
    rcases hqp with rfl | ⟨q, rfl⟩
    · simp
    · intro hcontra
      simp only [List.nil_append, List.take] at hcontra
      have := congrArg List.head? hcontra
      simp at this
  | cons c t =>
    cases t with
    | nil =>
      intro hcontra
      simp only [List.cons_append, List.nil_append, List.take] at hcontra
      rcases hqp with rfl | ⟨q, rfl⟩
      · simp [List.take] at hcontra
      · simp [List.take] at hcontra
    | cons d t2 =>
      intro hcontra
      apply h
      simpa [List.take] using hcontra

/-- parsing an assembled URL with empty netloc, no // restoration and no
scheme accident recovers the components. -/
theorem urlsplitE_assembled_plain (s W q : Str)
    (hs : s = [] ∨ (validScheme s = true ∧ s.map Char.toLower = s))
    (hW : ∀ c ∈ W, (c == '#') = false ∧ (c == '?') = false)
    (hq : ∀ c ∈ q, (c == '#') = false)
    (hW2 : W.take 2 ≠ ['/', '/'])
    (hnos : s = [] → NoSchemePrefix W)
    (hnb : s = [] ∨ s ∉ usesNetloc) :
    urlsplitE (assemble s [] W q) = some ⟨s, [], W, [], q, []⟩ := by
  have hcond : ¬(([] : Str) ≠ [] ∨ (s ≠ [] ∧ s ∈ usesNetloc ∧ W.take 2 ≠ ['/', '/'])) := by
    rintro (h1 | ⟨h2, h3, -⟩)
    · exact h1 rfl
    · rcases hnb with h4 | h4
      · exact h2 h4
      · exact h4 h3
  have hD_nohash : ∀ c ∈ W ++ (if q = [] then [] else '?' :: q), (c == '#') = false := by
    intro c hc
    rcases List.mem_append.mp hc with h1 | h2
    · exact (hW c h1).1
    · by_cases hqq : q = []
      · rw [if_pos hqq] at h2; simp at h2
      · rw [if_neg hqq] at h2
        rcases List.mem_cons.mp h2 with rfl | hcq
        · rfl
        · exact hq c hcq
  have hW_noq : ∀ c ∈ W, (c == '?') = false := fun c hc => (hW c hc).2
  have hasm : assemble s [] W q =
      (if s = [] then [] else s ++ [':']) ++ (W ++ (if q = [] then [] else '?' :: q)) := by
    unfold assemble
    rw [if_neg hcond]
    by_cases hsnil : s = []
    · by_cases hqq : q = [] <;> simp [hsnil, hqq]
    · by_cases hqq : q = [] <;> simp [hsnil, hqq]
  have hscheme : splitScheme (assemble s [] W q) =
      (s, W ++ (if q = [] then [] else '?' :: q)) := by
    rcases hs with hsnil | ⟨hv, hl⟩
    · rw [hasm, if_pos hsnil, hsnil]
      simp only [List.nil_append]
      apply splitScheme_of_nsp
      by_cases hqq : q = []
      · rw [if_pos hqq, List.append_nil]
        exact hnos hsnil
      · rw [if_neg hqq]
        exact nsp_append_query W q (hnos hsnil)
    · have hsnil : s ≠ [] := validScheme_ne_nil s hv
      rw [hasm, if_neg hsnil]
      rw [show (s ++ [':']) ++ (W ++ (if q = [] then [] else '?' :: q)) =
          s ++ ':' :: (W ++ (if q = [] then [] else '?' :: q)) from by simp]
      exact splitScheme_of_good s _ hv hl
  have htake : (W ++ (if q = [] then [] else '?' :: q)).take 2 ≠ ['/', '/'] := by
    apply take2_append_ne W _ hW2
    by_cases hqq : q = []
    · left; rw [if_pos hqq]
    · right; exact ⟨q, by rw [if_neg hqq]⟩
  have hs1 : (splitScheme (assemble s [] W q)).1 = s := by rw [hscheme]
  have hs2 : (splitScheme (assemble s [] W q)).2 =
      W ++ (if q = [] then [] else '?' :: q) := by rw [hscheme]
  unfold urlsplitE
  rw [hs1, hs2]
  rw [if_neg htake]
  unfold urlsplitCore
  rw [if_pos (by simp : ('[' ∈ ([] : Str) ↔ ']' ∈ ([] : Str)))]
  rw [splitOnFirst_eq_self _ _ hD_nohash]
  by_cases hqq : q = []
  · rw [if_pos hqq] at hD_nohash ⊢
    rw [List.append_nil]
    simp [splitOnFirst_eq_self _ _ hW_noq, hqq]
  · rw [if_neg hqq]
    simp [splitOnFirst_append_found _ _ '?' q hW_noq (by rfl)]

theorem urlsplitCore_params_nil (s n r : Str) (p : URLParts)
    (h : urlsplitCore s n r = some p) : p.params = [] := by
  unfold urlsplitCore at h
  split at h
  · injection h with h2
    subst h2
    rfl
  · simp at h

theorem urlsplitE_params_nil (u : Str) (p : URLParts) (h : urlsplitE u = some p) :
    p.params = [] := by
  unfold urlsplitE at h
  split at h
  · exact urlsplitCore_params_nil _ _ _ p h
  · exact urlsplitCore_params_nil _ _ _ p h

theorem urlparseE_eq (u : Str) :
    urlparseE u = (urlsplitE u).map fun p =>
      ⟨p.scheme, p.netloc, (paramsPhase p.scheme p.path).1,
        (paramsPhase p.scheme p.path).2, p.query, p.fragment⟩ := by
  unfold urlparseE paramsPhase
  cases h : urlsplitE u with
  | none => rfl
  | some p =>
    have hpr : p.params = [] := urlsplitE_params_nil u p h
    obtain ⟨ps, pn, ppa, ppr, pq, pf⟩ := p
    simp only at hpr
    subst hpr
    simp only [Option.map_some']
    by_cases hc : ps ∈ usesParams ∧ ';' ∈ ppa
    · simp [hc]
    · simp [hc]

theorem normalize_url_eq (u : Str) (p : URLParts) (hp : urlparseE u = some p) :
    normalize_url u =
      (if p.path = [] then
        assemble p.scheme p.netloc (joinParams p.path p.params) p.query ++ ['/']
      else assemble p.scheme p.netloc (joinParams p.path p.params) p.query) := by
  simp only [normalize_url, hp, urlunparse_eq_assemble]

theorem assemble_append_slash (s n w : Str)
    (hw : w = [] ∨ ∃ t, w = ';' :: t) :
    assemble s n w [] ++ ['/'] = assemble s n (w ++ ['/']) [] := by
  have hne1 : w.take 2 ≠ ['/', '/'] := by
    rcases hw with rfl | ⟨t, rfl⟩
    · simp
    · intro hcontra
      have := congrArg List.head? hcontra
      simp [List.take] at this
  have hne2 : (w ++ ['/']).take 2 ≠ ['/', '/'] := by
    rcases hw with rfl | ⟨t, rfl⟩
    · simp [List.take]
    · intro hcontra
      have := congrArg List.head? hcontra
      simp [List.take] at this
  have he1 : (w.take 2 ≠ ['/', '/']) = True := eq_true hne1
  have he2 : ((w ++ ['/']).take 2 ≠ ['/', '/']) = True := eq_true hne2
  unfold assemble
  simp only [he1, he2, and_true]
  by_cases hbr : n ≠ [] ∨ (s ≠ [] ∧ s ∈ usesNetloc)
  · rw [if_pos hbr, if_pos hbr]
    have hsf : slashFix w ++ ['/'] = slashFix (w ++ ['/']) := by
      rcases hw with rfl | ⟨t, rfl⟩
      · simp [slashFix]
      · simp [slashFix]
    by_cases hs : s = []
    · simp [hs, List.append_assoc, hsf]
    · simp [hs, List.append_assoc, hsf]
  · rw [if_neg hbr, if_neg hbr]
    by_cases hs : s = []
    · simp [hs]
    · simp [hs, List.append_assoc]

/-! ### Params splitting: rejoin lemmas -/

theorem splitAtLast_eq_none (p : Char → Bool) (l : Str)
    (h : ∀ c ∈ l, p c = false) : splitAtLast p l = none := by
  induction l with
  | nil => rfl
  | cons c t ih =>
    have hc : p c = false := h c (by simp)
    have ht := ih (fun d hd => h d (by simp [hd]))
    simp [splitAtLast, ht, hc]

theorem splitParamsFun_no_semi_after_slash (x y : Str)
    (hy : ∀ c ∈ y, (c == '/') = false) (hys : ∀ c ∈ y, (c == ';') = false) :
    splitParamsFun (x ++ '/' :: y) = (x ++ '/' :: y, []) := by
  simp only [splitParamsFun, splitAtLast_append _ x '/' y (by rfl) hy,
    splitOnFirst_eq_self _ y hys]

theorem splitParamsFun_found_slash (x a b : Str)
    (ha1 : ∀ c ∈ a, (c == ';') = false) (ha2 : ∀ c ∈ a, (c == '/') = false)
    (hb : ∀ c ∈ b, (c == '/') = false) :
    splitParamsFun (x ++ '/' :: (a ++ ';' :: b)) = (x ++ '/' :: a, b) := by
  have hnos : ∀ c ∈ a ++ ';' :: b, (c == '/') = false := by
    intro c hc
    rcases List.mem_append.mp hc with h1 | h2
    · exact ha2 c h1
    · rcases List.mem_cons.mp h2 with rfl | h3
      · rfl
      · exact hb c h3
  simp only [splitParamsFun, splitAtLast_append _ x '/' (a ++ ';' :: b) (by rfl) hnos,
    splitOnFirst_append_found _ a ';' b ha1 (by rfl)]

theorem splitParamsFun_no_slash (a b : Str)
    (hna : ∀ c ∈ a ++ ';' :: b, (c == '/') = false)
    (ha : ∀ c ∈ a, (c == ';') = false) :
    splitParamsFun (a ++ ';' :: b) = (a, b) := by
  simp only [splitParamsFun, splitAtLast_eq_none _ _ hna,
    splitOnFirst_append_found _ a ';' b ha (by rfl)]

theorem splitParamsFun_join (w0 pa pr : Str) (h : splitParamsFun w0 = (pa, pr)) :
    joinParams pa pr = w0 ∨ joinParams pa pr ++ [';'] = w0 := by
  cases hsl : splitAtLast (· == '/') w0 with
  | some r =>
    obtain ⟨w1, w2⟩ := r
    obtain ⟨c, hc, hw0, hw2f⟩ := splitAtLast_some _ w0 w1 w2 hsl
    have hcc : c = '/' := by simpa using hc
    subst hcc
    cases hsp : splitOnFirst (· == ';') w2 with
    | mk a ob =>
      cases ob with
      | some b =>
        simp only [splitParamsFun, hsl, hsp] at h
        obtain ⟨rfl, rfl⟩ := Prod.mk.injEq .. ▸ h
        obtain ⟨ha, d, hd, hw2⟩ := splitOnFirst_found _ w2 a b hsp
        have hdd : d = ';' := by simpa using hd
        subst hdd
        by_cases hb : b = []
        · right
          subst hb
          rw [hw0, hw2]
          simp [joinParams]
        · left
          rw [hw0, hw2]
          simp [joinParams, hb]
      | none =>
        simp only [splitParamsFun, hsl, hsp] at h
        obtain ⟨rfl, rfl⟩ := Prod.mk.injEq .. ▸ h
        left
        simp [joinParams]
  | none =>
    cases hsp : splitOnFirst (· == ';') w0 with
    | mk a ob =>
      cases ob with
      | some b =>
        simp only [splitParamsFun, hsl, hsp] at h
        obtain ⟨rfl, rfl⟩ := Prod.mk.injEq .. ▸ h
        obtain ⟨ha, d, hd, hw0⟩ := splitOnFirst_found _ w0 a b hsp
        have hdd : d = ';' := by simpa using hd
        subst hdd
        by_cases hb : b = []
        · right
          subst hb
          rw [hw0]
          simp [joinParams]
        · left
          rw [hw0]
          simp [joinParams, hb]
      | none =>
        simp only [splitParamsFun, hsl, hsp] at h
        obtain ⟨rfl, rfl⟩ := Prod.mk.injEq .. ▸ h
        left
        simp [joinParams]

theorem splitParamsFun_facts (w0 pa pr : Str) (hw : ';' ∈ w0)
    (h : splitParamsFun w0 = (pa, pr)) :
    (∃ x y, pa = x ++ '/' :: y ∧ (∀ c ∈ y, (c == ';') = false) ∧
      (∀ c ∈ y, (c == '/') = false) ∧ (∀ c ∈ pr, (c == '/') = false)) ∨
    ((∀ c ∈ pa, (c == '/') = false) ∧ (∀ c ∈ pa, (c == ';') = false) ∧
      (∀ c ∈ pr, (c == '/') = false)) := by
  cases hsl : splitAtLast (· == '/') w0 with
  | some r =>
    obtain ⟨w1, w2⟩ := r
    obtain ⟨c, hc, hw0, hw2f⟩ := splitAtLast_some _ w0 w1 w2 hsl
    have hcc : c = '/' := by simpa using hc
    subst hcc
    cases hsp : splitOnFirst (· == ';') w2 with
    | mk a ob =>
      cases ob with
      | some b =>
        simp only [splitParamsFun, hsl, hsp] at h
        obtain ⟨rfl, rfl⟩ := Prod.mk.injEq .. ▸ h
        obtain ⟨ha, d, hd, hw2⟩ := splitOnFirst_found _ w2 a b hsp
        have hdd : d = ';' := by simpa using hd
        subst hdd
        left
        refine ⟨w1, a, rfl, ha, ?_, ?_⟩
        · intro c hc2
          exact hw2f c (by rw [hw2]; simp [hc2])
        · intro c hc2
          exact hw2f c (by rw [hw2]; simp [hc2])
      | none =>
        simp only [splitParamsFun, hsl, hsp] at h
        obtain ⟨rfl, rfl⟩ := Prod.mk.injEq .. ▸ h
        obtain ⟨heq, hnosemi⟩ := splitOnFirst_none _ w2 a hsp
        left
        exact ⟨w1, w2, hw0, hnosemi, hw2f, by simp⟩
  | none =>
    have hnosl := splitAtLast_none _ w0 hsl
    cases hsp : splitOnFirst (· == ';') w0 with
    | mk a ob =>
      cases ob with
      | some b =>
        simp only [splitParamsFun, hsl, hsp] at h
        obtain ⟨rfl, rfl⟩ := Prod.mk.injEq .. ▸ h
        obtain ⟨ha, d, hd, hw0⟩ := splitOnFirst_found _ w0 a b hsp
        have hdd : d = ';' := by simpa using hd
        subst hdd
        right
        refine ⟨?_, ha, ?_⟩
        · intro c hc2
          exact hnosl c (by rw [hw0]; simp [hc2])
        · intro c hc2
          exact hnosl c (by rw [hw0]; simp [hc2])
      | none =>
        exfalso
        obtain ⟨-, hall⟩ := splitOnFirst_none _ w0 a hsp
        have := hall ';' hw
        simp at this

theorem rejoined_trailing_slash (s w1 : Str) : Rejoined s (w1 ++ ['/']) := by
  unfold Rejoined paramsPhase
  by_cases h : s ∈ usesParams ∧ ';' ∈ w1 ++ ['/']
  · rw [if_pos h, splitParamsFun_no_semi_after_slash w1 [] (by simp) (by simp)]
    exact ⟨by simp [joinParams], by simp⟩
  · rw [if_neg h]
    exact ⟨by simp [joinParams], by simp⟩

theorem joinParams_ne_nil (pa pr : Str) (hpa : pa ≠ []) : joinParams pa pr ≠ [] := by
  unfold joinParams
  split
  · exact hpa
  · simp

theorem joinParams_mem (pa pr : Str) :
    ∀ c ∈ joinParams pa pr, c ∈ pa ∨ c = ';' ∨ c ∈ pr := by
  unfold joinParams
  split
  · intro c hc
    exact Or.inl hc
  · intro c hc
    rcases List.mem_append.mp hc with h | h
    · exact Or.inl h
    · rcases List.mem_cons.mp h with rfl | h
      · exact Or.inr (Or.inl rfl)
      · exact Or.inr (Or.inr h)

theorem joinParams_take2 (pa pr : Str) (h : pa.take 2 ≠ ['/', '/']) :
    (joinParams pa pr).take 2 ≠ ['/', '/'] := by
  unfold joinParams
  split
  · exact h
  · cases pa with
    | nil =>
      cases pr with
      | nil => simp [List.take]
      | cons c t => simp [List.take]
    | cons c t =>
      cases t with
      | nil =>
        intro hc
        simp [List.take] at hc
      | cons d t2 =>
        intro hc
        apply h
        simpa [List.take] using hc

theorem rejoined_shapeA_aux (s pa pr x0 : Str) (hpa : pa ≠ [])
    (hx0 : x0 = [] ∨ x0 = ['/']) (hf : ParamsFacts s pa pr) :
    Rejoined s (x0 ++ joinParams pa pr) := by
  have hne : x0 ++ joinParams pa pr ≠ [] := by
    have := joinParams_ne_nil pa pr hpa
    intro hc
    rcases List.append_eq_nil.mp hc with ⟨-, h2⟩
    exact this h2
  rcases hf with ⟨hpr, hni⟩ | ⟨x, y, hxy, hy1, hy2, hpr1⟩ | ⟨h1, h2, h3⟩
  · -- params split was never invoked on the path
    subst hpr
    unfold Rejoined paramsPhase
    have hnot : ¬(s ∈ usesParams ∧ ';' ∈ x0 ++ joinParams pa []) := by
      rintro ⟨hu, hm⟩
      apply hni
      refine ⟨hu, ?_⟩
      simp only [joinParams, if_pos rfl] at hm
      rcases List.mem_append.mp hm with hm1 | hm2
      · rcases hx0 with rfl | rfl <;> simp at hm1
      · exact hm2
    rw [if_neg hnot]
    exact ⟨by simp [joinParams], hne⟩
  · -- path has a slash, and nothing after its last slash is a slash
    subst hxy
    unfold Rejoined paramsPhase
    by_cases hinv : s ∈ usesParams ∧ ';' ∈ x0 ++ joinParams (x ++ '/' :: y) pr
    · rw [if_pos hinv]
      by_cases hpr : pr = []
      · subst hpr
        rw [show x0 ++ joinParams (x ++ '/' :: y) [] = (x0 ++ x) ++ '/' :: y by
          simp [joinParams]]
        rw [splitParamsFun_no_semi_after_slash (x0 ++ x) y hy2 hy1]
        exact ⟨by simp [joinParams], by simp⟩
      · rw [show x0 ++ joinParams (x ++ '/' :: y) pr = (x0 ++ x) ++ '/' :: (y ++ ';' :: pr) by
          simp [joinParams, hpr]]
        rw [splitParamsFun_found_slash (x0 ++ x) y pr hy1 hy2 hpr1]
        refine ⟨?_, by simp⟩
        by_cases hprn : pr = []
        · exact absurd hprn hpr
        · simp [joinParams, hprn, List.append_assoc]
    · rw [if_neg hinv]
      exact ⟨by simp [joinParams], hne⟩
  · -- path is slash-free
    unfold Rejoined paramsPhase
    by_cases hinv : s ∈ usesParams ∧ ';' ∈ x0 ++ joinParams pa pr
    · rw [if_pos hinv]
      by_cases hpr : pr = []
      · exfalso
        subst hpr
        obtain ⟨-, hm⟩ := hinv
        simp only [joinParams, if_pos rfl] at hm
        rcases List.mem_append.mp hm with hm1 | hm2
        · rcases hx0 with rfl | rfl <;> simp at hm1
        · have := h2 ';' hm2
          simp at this
      · rw [show x0 ++ joinParams pa pr = x0 ++ (pa ++ ';' :: pr) by simp [joinParams, hpr]]
        rcases hx0 with rfl | rfl
        · have hna : ∀ c ∈ pa ++ ';' :: pr, (c == '/') = false := by
            intro c hc
            rcases List.mem_append.mp hc with hca | hcb
            · exact h1 c hca
            · rcases List.mem_cons.mp hcb with rfl | hcc
              · rfl
              · exact h3 c hcc
          rw [List.nil_append, splitParamsFun_no_slash pa pr hna h2]
          exact ⟨by simp [joinParams, hpr], hpa⟩
        · rw [show ['/'] ++ (pa ++ ';' :: pr) = [] ++ '/' :: (pa ++ ';' :: pr) by simp]
          rw [splitParamsFun_found_slash [] pa pr h2 h1 h3]
          exact ⟨by simp [joinParams, hpr], by simp⟩
    · rw [if_neg hinv]
      exact ⟨by simp [joinParams], hne⟩

theorem rejoined_join (s pa pr : Str) (hpa : pa ≠ []) (hf : ParamsFacts s pa pr) :
    Rejoined s (joinParams pa pr) := by
  have := rejoined_shapeA_aux s pa pr [] hpa (Or.inl rfl) hf
  simpa using this

theorem rejoined_slashFix (s pa pr : Str) (hpa : pa ≠ []) (hf : ParamsFacts s pa pr) :
    Rejoined s (slashFix (joinParams pa pr)) := by
  unfold slashFix
  by_cases h : joinParams pa pr ≠ [] ∧ (joinParams pa pr).head? ≠ some '/'
  · rw [if_pos h]
    have := rejoined_shapeA_aux s pa pr ['/'] hpa (Or.inr rfl) hf
    simpa using this
  · rw [if_neg h]
    exact rejoined_join s pa pr hpa hf

theorem slashFix_idem (w : Str) : slashFix (slashFix w) = slashFix w := by
  cases w with
  | nil => simp [slashFix]
  | cons c t =>
    by_cases hc : c = '/'
    · subst hc
      simp [slashFix]
    · simp [slashFix, hc]

theorem assemble_slashFix (s n w q : Str) (hw : w ≠ [])
    (hcond : n ≠ [] ∨ (s ≠ [] ∧ s ∈ usesNetloc ∧ w.take 2 ≠ ['/', '/'])) :
    assemble s n (slashFix w) q = assemble s n w q := by
  have hcond2 : n ≠ [] ∨ (s ≠ [] ∧ s ∈ usesNetloc ∧ (slashFix w).take 2 ≠ ['/', '/']) := by
    rcases hcond with h | ⟨h1, h2, h3⟩
    · exact Or.inl h
    · exact Or.inr ⟨h1, h2, slashFix_take2 w hw h3⟩
  have e1 : (if n ≠ [] ∨ (s ≠ [] ∧ s ∈ usesNetloc ∧ (slashFix w).take 2 ≠ ['/', '/']) then
      '/' :: '/' :: (n ++ slashFix (slashFix w)) else slashFix w) =
      '/' :: '/' :: (n ++ slashFix w) := by
    rw [if_pos hcond2, slashFix_idem]
  have e2 : (if n ≠ [] ∨ (s ≠ [] ∧ s ∈ usesNetloc ∧ w.take 2 ≠ ['/', '/']) then
      '/' :: '/' :: (n ++ slashFix w) else w) = '/' :: '/' :: (n ++ slashFix w) := by
    rw [if_pos hcond]
  simp only [assemble]
  rw [e1, e2]

/-! ### Inversion of urlsplit: facts about every successfully parsed URL -/

theorem splitOnFirst_fst_false (pb : Char → Bool) (l : Str) :
    ∀ c ∈ (splitOnFirst pb l).1, pb c = false := by
  cases hsp : splitOnFirst pb l with
  | mk a ob =>
    cases ob with
    | some b =>
      obtain ⟨ha, -⟩ := splitOnFirst_found _ l a b hsp
      simpa using ha
    | none =>
      obtain ⟨heq, hall⟩ := splitOnFirst_none _ l a hsp
      subst heq
      simpa using hall

theorem splitOnFirst_fst_prefix (pb : Char → Bool) (l : Str) :
    ∃ t, l = (splitOnFirst pb l).1 ++ t := by
  cases hsp : splitOnFirst pb l with
  | mk a ob =>
    cases ob with
    | some b =>
      obtain ⟨-, c, -, hl⟩ := splitOnFirst_found _ l a b hsp
      exact ⟨c :: b, by simpa using hl⟩
    | none =>
      obtain ⟨heq, -⟩ := splitOnFirst_none _ l a hsp
      exact ⟨[], by simp [heq]⟩

theorem urlsplitCore_inv (s n r : Str) (p : URLParts)
    (h : urlsplitCore s n r = some p) :
    ('[' ∈ n ↔ ']' ∈ n) ∧
    p = ⟨s, n, (splitOnFirst (· == '?') (splitOnFirst (· == '#') r).1).1, [],
      ((splitOnFirst (· == '?') (splitOnFirst (· == '#') r).1).2).getD [],
      ((splitOnFirst (· == '#') r).2).getD []⟩ := by
  unfold urlsplitCore at h
  split at h
  · injection h with h2
    exact ⟨by assumption, h2.symm⟩
  · simp at h

theorem core_path_q_facts (r : Str) :
    (∀ c ∈ (splitOnFirst (· == '?') (splitOnFirst (· == '#') r).1).1,
      (c == '#') = false ∧ (c == '?') = false) ∧
    (∀ c ∈ ((splitOnFirst (· == '?') (splitOnFirst (· == '#') r).1).2).getD [],
      (c == '#') = false) ∧
    (∃ t, r = (splitOnFirst (· == '?') (splitOnFirst (· == '#') r).1).1 ++ t) := by
  obtain ⟨t1, ht1⟩ := splitOnFirst_fst_prefix (· == '#') r
  obtain ⟨t2, ht2⟩ := splitOnFirst_fst_prefix (· == '?') (splitOnFirst (· == '#') r).1
  have hfr : ∀ c ∈ (splitOnFirst (· == '#') r).1, (c == '#') = false :=
    splitOnFirst_fst_false _ r
  refine ⟨?_, ?_, ?_⟩
  · intro c hc
    constructor
    · exact hfr c (by rw [ht2]; simp [hc])
    · exact splitOnFirst_fst_false (· == '?') _ c hc
  · cases hq : (splitOnFirst (· == '?') (splitOnFirst (· == '#') r).1).2 with
    | none => simp
    | some q2 =>
      intro c hc
      simp only [Option.getD_some] at hc
      cases hq2 : splitOnFirst (· == '?') (splitOnFirst (· == '#') r).1 with
      | mk a ob =>
        rw [hq2] at hq
        simp only at hq
        subst hq
        obtain ⟨-, d, -, heq⟩ :=
          splitOnFirst_found (· == '?') (splitOnFirst (· == '#') r).1 a q2 hq2
        exact hfr c (by rw [heq]; simp [hc])
  · refine ⟨t2 ++ t1, ?_⟩
    conv_lhs => rw [ht1]
    conv_lhs => rw [ht2]
    simp [List.append_assoc]

theorem core_path_shape (r : Str)
    (hr : r = [] ∨ ∃ c t, r = c :: t ∧ isNetDelim c = true) :
    (splitOnFirst (· == '?') (splitOnFirst (· == '#') r).1).1 = [] ∨
    ∃ t, (splitOnFirst (· == '?') (splitOnFirst (· == '#') r).1).1 = '/' :: t := by
  rcases hr with rfl | ⟨c, t, rfl, hc⟩
  · left
    rfl
  · have hc3 : c = '/' ∨ c = '?' ∨ c = '#' := by
      simp only [isNetDelim, Bool.or_eq_true, beq_iff_eq] at hc
      tauto
    rcases hc3 with rfl | rfl | rfl
    · right
      simp [splitOnFirst]
    · left
      simp [splitOnFirst]
    · left
      simp [splitOnFirst]

theorem urlsplitE_facts (u : Str) (p : URLParts) (h : urlsplitE u = some p) :
    (p.scheme = [] ∨ (validScheme p.scheme = true ∧
      p.scheme.map Char.toLower = p.scheme)) ∧
    (∀ c ∈ p.netloc, isNetDelim c = false) ∧
    ('[' ∈ p.netloc ↔ ']' ∈ p.netloc) ∧
    (∀ c ∈ p.path, (c == '#') = false ∧ (c == '?') = false) ∧
    (∀ c ∈ p.query, (c == '#') = false) ∧
    (p.scheme = [] → NoSchemePrefix p.path) := by
  have hscheme : ∀ q : URLParts, q.scheme = (splitScheme u).1 →
      q.scheme = [] ∨ (validScheme q.scheme = true ∧
        q.scheme.map Char.toLower = q.scheme) := by
    intro q hq
    rcases splitScheme_cases u with ⟨heq, -⟩ | ⟨pre, rest, hv, heq, -⟩
    · left
      rw [hq, heq]
    · right
      rw [hq, heq]
      exact ⟨validScheme_map_toLower pre hv, map_toLower_idem pre⟩
  unfold urlsplitE at h
  by_cases hbr : ((splitScheme u).2).take 2 = ['/', '/']
  · rw [if_pos hbr] at h
    obtain ⟨hbrk, hp⟩ := urlsplitCore_inv _ _ _ p h
    obtain ⟨hpq, hqf, -⟩ := core_path_q_facts (netlocSpan (((splitScheme u).2).drop 2)).2
    have hshape := core_path_shape (netlocSpan (((splitScheme u).2).drop 2)).2
      (netlocSpan_snd _)
    refine ⟨hscheme p (by rw [hp]), ?_, ?_, ?_, ?_, ?_⟩
    · rw [hp]
      exact netlocSpan_fst _
    · rw [hp]
      exact hbrk
    · rw [hp]
      exact hpq
    · rw [hp]
      exact hqf
    · intro _
      rw [hp]
      rcases hshape with hnil | ⟨t, ht⟩
      · simp only [hnil]
        exact nsp_nil
      · simp only [ht]
        apply nsp_head_not_alpha
        intro c t2 hct
        injection hct with h1 h2
        rw [← h1]
        decide
  · rw [if_neg hbr] at h
    obtain ⟨hbrk, hp⟩ := urlsplitCore_inv _ _ _ p h
    obtain ⟨hpq, hqf, hpre⟩ := core_path_q_facts ((splitScheme u).2)
    refine ⟨hscheme p (by rw [hp]), ?_, ?_, ?_, ?_, ?_⟩
    · rw [hp]
      intro c hc
      simp at hc
    · rw [hp]
      simp
    · rw [hp]
      exact hpq
    · rw [hp]
      exact hqf
    · intro hs
      have hs2 : (splitScheme u).1 = [] := by rw [hp] at hs; exact hs
      have hnspu := nsp_of_splitScheme_fst_nil u hs2
      have hsnd : (splitScheme u).2 = u := by
        rw [splitScheme_of_nsp u hnspu]
      have hnsp2 : NoSchemePrefix (splitScheme u).2 := by
        rw [hsnd]
        exact hnspu
      obtain ⟨t, ht⟩ := hpre
      rw [hp]
      refine nsp_append_of_nsp _ t ?_
      rw [← ht]
      exact hnsp2

theorem urlparseE_facts (u : Str) (p : URLParts) (h : urlparseE u = some p) :
    (p.scheme = [] ∨ (validScheme p.scheme = true ∧
      p.scheme.map Char.toLower = p.scheme)) ∧
    (∀ c ∈ p.netloc, isNetDelim c = false) ∧
    ('[' ∈ p.netloc ↔ ']' ∈ p.netloc) ∧
    (∀ c ∈ joinParams p.path p.params, (c == '#') = false ∧ (c == '?') = false) ∧
    (∀ c ∈ p.query, (c == '#') = false) ∧
    ParamsFacts p.scheme p.path p.params ∧
    (p.scheme = [] → NoSchemePrefix (joinParams p.path p.params)) := by
  rw [urlparseE_eq] at h
  cases hsp : urlsplitE u with
  | none =>
    rw [hsp] at h
    simp at h
  | some p0 =>
    rw [hsp] at h
    simp only [Option.map_some', Option.some.injEq] at h
    have hps : p.scheme = p0.scheme := by rw [← h]
    have hpn : p.netloc = p0.netloc := by rw [← h]
    have hppa : p.path = (paramsPhase p0.scheme p0.path).1 := by rw [← h]
    have hppr : p.params = (paramsPhase p0.scheme p0.path).2 := by rw [← h]
    have hpq2 : p.query = p0.query := by rw [← h]
    obtain ⟨hsch, hnet, hbrk, hpath, hq, hnsp⟩ := urlsplitE_facts u p0 hsp
    have hjoin : joinParams (paramsPhase p0.scheme p0.path).1
        (paramsPhase p0.scheme p0.path).2 = p0.path ∨
        joinParams (paramsPhase p0.scheme p0.path).1
          (paramsPhase p0.scheme p0.path).2 ++ [';'] = p0.path := by
      unfold paramsPhase
      by_cases hc : p0.scheme ∈ usesParams ∧ ';' ∈ p0.path
      · rw [if_pos hc]
        exact splitParamsFun_join p0.path _ _ rfl
      · rw [if_neg hc]
        left
        simp [joinParams]
    rw [hps, hpn, hppa, hppr, hpq2]
    refine ⟨hsch, hnet, hbrk, ?_, hq, ?_, ?_⟩
    · intro c hc
      apply hpath
      rcases hjoin with he | he
      · rw [he] at hc
        exact hc
      · rw [← he]
        exact List.mem_append_left _ hc
    · unfold ParamsFacts
      by_cases hc : p0.scheme ∈ usesParams ∧ ';' ∈ p0.path
      · have hfacts := splitParamsFun_facts p0.path (splitParamsFun p0.path).1
          (splitParamsFun p0.path).2 hc.2 rfl
        have hred : paramsPhase p0.scheme p0.path = splitParamsFun p0.path := by
          unfold paramsPhase
          rw [if_pos hc]
        rw [hred]
        rcases hfacts with h2 | h3
        · exact Or.inr (Or.inl h2)
        · exact Or.inr (Or.inr h3)
      · have hred : paramsPhase p0.scheme p0.path = (p0.path, []) := by
          unfold paramsPhase
          rw [if_neg hc]
        rw [hred]
        exact Or.inl ⟨rfl, hc⟩
    · intro hs
      have hns := hnsp hs
      rcases hjoin with he | he
      · rw [he]
        exact hns
      · refine nsp_append_of_nsp _ [';'] ?_
        rw [he]
        exact hns

/-- normalizing a URL whose urlsplit result is known, when the params
split rejoins losslessly to a nonempty path region. -/
theorem normalize_parsed (v s n W q : Str)
    (hparse : urlsplitE v = some ⟨s, n, W, [], q, []⟩)
    (hrej : Rejoined s W) :
    normalize_url v = assemble s n W q := by
  have hparse2 : urlparseE v =
      some ⟨s, n, (paramsPhase s W).1, (paramsPhase s W).2, q, []⟩ := by
    rw [urlparseE_eq, hparse]
    rfl
  rw [normalize_url_eq v _ hparse2]
  show (if (paramsPhase s W).1 = [] then
      assemble s n (joinParams (paramsPhase s W).1 (paramsPhase s W).2) q ++ ['/']
    else assemble s n (joinParams (paramsPhase s W).1 (paramsPhase s W).2) q) =
    assemble s n W q
  rw [if_neg hrej.2, hrej.1]

theorem idem_shapeB (s n w : Str)
    (hsch : s = [] ∨ (validScheme s = true ∧ s.map Char.toLower = s))
    (hnet : ∀ c ∈ n, isNetDelim c = false)
    (hbrk : '[' ∈ n ↔ ']' ∈ n)
    (hwf : ∀ c ∈ w, (c == '#') = false ∧ (c == '?') = false)
    (hwsh : w = [] ∨ ∃ t, w = ';' :: t) :
    normalize_url (assemble s n (w ++ ['/']) []) = assemble s n (w ++ ['/']) [] := by
  have hW2f : ∀ c ∈ w ++ ['/'], (c == '#') = false ∧ (c == '?') = false := by
    intro c hc
    rcases List.mem_append.mp hc with h1 | h2
    · exact hwf c h1
    · rcases List.mem_cons.mp h2 with rfl | h3
      · exact ⟨rfl, rfl⟩
      · simp at h3
  have hW2take : (w ++ ['/']).take 2 ≠ ['/', '/'] := by
    rcases hwsh with rfl | ⟨t, rfl⟩
    · decide
    · intro hc
      have := congrArg List.head? hc
      simp [List.take] at this
  have hW2ne : w ++ ['/'] ≠ [] := by simp
  by_cases hcond : n ≠ [] ∨ (s ≠ [] ∧ s ∈ usesNetloc ∧ (w ++ ['/']).take 2 ≠ ['/', '/'])
  · have hparse := urlsplitE_assembled_netloc s n (w ++ ['/']) [] hsch hnet hbrk
      hW2f (by simp) hW2ne hcond
    have hsf : ∃ w1, slashFix (w ++ ['/']) = w1 ++ ['/'] := by
      unfold slashFix
      split
      · exact ⟨'/' :: w, by simp⟩
      · exact ⟨w, rfl⟩
    obtain ⟨w1, hw1⟩ := hsf
    have hrej : Rejoined s (slashFix (w ++ ['/'])) := by
      rw [hw1]
      exact rejoined_trailing_slash s w1
    rw [normalize_parsed _ s n (slashFix (w ++ ['/'])) [] hparse hrej]
    exact assemble_slashFix s n (w ++ ['/']) [] hW2ne hcond
  · have hn0 : n = [] := by
      by_contra hn
      exact hcond (Or.inl hn)
    have hnb : s = [] ∨ s ∉ usesNetloc := by
      by_cases hs0 : s = []
      · exact Or.inl hs0
      · right
        intro hmem
        exact hcond (Or.inr ⟨hs0, hmem, hW2take⟩)
    have hnos : s = [] → NoSchemePrefix (w ++ ['/']) := by
      intro _
      rcases hwsh with rfl | ⟨t, rfl⟩
      · apply nsp_head_not_alpha
        intro c t2 hct
        rw [show ([] : Str) ++ ['/'] = ['/'] from rfl] at hct
        injection hct with h1 h2
        rw [← h1]
        decide
      · apply nsp_head_not_alpha
        intro c t2 hct
        rw [show (';' :: t) ++ ['/'] = ';' :: (t ++ ['/']) from rfl] at hct
        injection hct with h1 h2
        rw [← h1]
        decide
    subst hn0
    have hparse := urlsplitE_assembled_plain s (w ++ ['/']) [] hsch hW2f (by simp)
      hW2take hnos hnb
    have hrej : Rejoined s (w ++ ['/']) := rejoined_trailing_slash s w
    rw [normalize_parsed _ s [] (w ++ ['/']) [] hparse hrej]

theorem idem_shapeA (s n pa pr q : Str) (hpa : pa ≠ [])
    (hsch : s = [] ∨ (validScheme s = true ∧ s.map Char.toLower = s))
    (hnet : ∀ c ∈ n, isNetDelim c = false)
    (hbrk : '[' ∈ n ↔ ']' ∈ n)
    (hWf : ∀ c ∈ joinParams pa pr, (c == '#') = false ∧ (c == '?') = false)
    (hq : ∀ c ∈ q, (c == '#') = false)
    (hPF : ParamsFacts s pa pr)
    (hNSP : s = [] → NoSchemePrefix (joinParams pa pr))
    (htake : n = [] → pa.take 2 ≠ ['/', '/']) :
    normalize_url (assemble s n (joinParams pa pr) q) =
      assemble s n (joinParams pa pr) q := by
  have hWne := joinParams_ne_nil pa pr hpa
  by_cases hcond : n ≠ [] ∨
      (s ≠ [] ∧ s ∈ usesNetloc ∧ (joinParams pa pr).take 2 ≠ ['/', '/'])
  · have hparse := urlsplitE_assembled_netloc s n (joinParams pa pr) q hsch hnet hbrk
      hWf hq hWne hcond
    have hrej := rejoined_slashFix s pa pr hpa hPF
    rw [normalize_parsed _ s n (slashFix (joinParams pa pr)) q hparse hrej]
    exact assemble_slashFix s n (joinParams pa pr) q hWne hcond
  · have hn0 : n = [] := by
      by_contra hn
      exact hcond (Or.inl hn)
    have hWtake : (joinParams pa pr).take 2 ≠ ['/', '/'] :=
      joinParams_take2 pa pr (htake hn0)
    have hnb : s = [] ∨ s ∉ usesNetloc := by
      by_cases hs0 : s = []
      · exact Or.inl hs0
      · right
        intro hmem
        exact hcond (Or.inr ⟨hs0, hmem, hWtake⟩)
    subst hn0
    have hparse := urlsplitE_assembled_plain s (joinParams pa pr) q hsch hWf hq
      hWtake hNSP hnb
    have hrej := rejoined_join s pa pr hpa hPF
    rw [normalize_parsed _ s [] (joinParams pa pr) q hparse hrej]

theorem normalize_url_idem (u : Str) (p : URLParts) (hp : urlparseE u = some p)
    (hdom1 : p.path ≠ [] ∨ p.query = [])
    (hdom2 : ¬(p.netloc = [] ∧ p.path.take 2 = ['/', '/'])) :
    normalize_url (normalize_url u) = normalize_url u := by
  obtain ⟨hsch, hnet, hbrk, hWf, hq, hPF, hNSP⟩ := urlparseE_facts u p hp
  rw [normalize_url_eq u p hp]
  by_cases hpa : p.path = []
  · rw [if_pos hpa]
    have hq0 : p.query = [] := hdom1.resolve_left (not_not_intro hpa)
    rw [hq0]
    have hwsh : joinParams p.path p.params = [] ∨
        ∃ t, joinParams p.path p.params = ';' :: t := by
      unfold joinParams
      split
      · exact Or.inl hpa
      · exact Or.inr ⟨p.params, by simp [hpa]⟩
    rw [assemble_append_slash p.scheme p.netloc _ hwsh]
    exact idem_shapeB p.scheme p.netloc (joinParams p.path p.params) hsch hnet hbrk
      hWf hwsh
  · rw [if_neg hpa]
    exact idem_shapeA p.scheme p.netloc p.path p.params p.query hpa hsch hnet hbrk
      hWf hq hPF hNSP (fun hn hcontra => hdom2 ⟨hn, hcontra⟩)

theorem splitScheme_bf (B T : Str) (hB : ∀ c ∈ B, (c == '#') = false)
    (hT : T = [] ∨ ∃ f, T = '#' :: f) :
    splitScheme (B ++ T) = ((splitScheme B).1, (splitScheme B).2 ++ T) := by
  cases hsp : splitOnFirst (· == ':') B with
  | mk a ob =>
    cases ob with
    | some b =>
      obtain ⟨ha, c, hc, hBeq⟩ := splitOnFirst_found _ B a b hsp
      have hcc : c = ':' := by simpa using hc
      subst hcc
      have hsp2 : splitOnFirst (· == ':') (B ++ T) = (a, some (b ++ T)) := by
        rw [hBeq, List.append_assoc]
        rw [show (':' :: b) ++ T = ':' :: (b ++ T) from rfl]
        exact splitOnFirst_append_found _ a ':' (b ++ T) ha (by simp)
      unfold splitScheme
      rw [hsp, hsp2]
      by_cases hv : validScheme a
      · simp [hv]
      · simp [hv]
    | none =>
      obtain ⟨heq, hnc⟩ := splitOnFirst_none _ B a hsp
      subst heq
      rcases hT with rfl | ⟨f, rfl⟩
      · unfold splitScheme
        rw [List.append_nil, hsp]
        simp
      · have e1 : splitOnFirst (· == ':') ('#' :: f) =
            ('#' :: (splitOnFirst (· == ':') f).1, (splitOnFirst (· == ':') f).2) := by
          simp [splitOnFirst]
        have hsp2 : splitOnFirst (· == ':') (a ++ '#' :: f) =
            (a ++ '#' :: (splitOnFirst (· == ':') f).1, (splitOnFirst (· == ':') f).2) := by
          rw [splitOnFirst_append_left _ a ('#' :: f) hnc, e1]
        cases hf : (splitOnFirst (· == ':') f).2 with
        | none =>
          rw [hf] at hsp2
          unfold splitScheme
          rw [hsp2, hsp]
        | some y =>
          rw [hf] at hsp2
          have hval : validScheme (a ++ '#' :: (splitOnFirst (· == ':') f).1) = false :=
            validScheme_false_of_mem _ '#' (by simp) (by decide)
          unfold splitScheme
          rw [hsp2, hsp]
          simp [hval]

theorem take2_bf (R T : Str) (hT : T = [] ∨ ∃ f, T = '#' :: f) :
    ((R ++ T).take 2 = ['/', '/']) ↔ (R.take 2 = ['/', '/']) := by
  cases R with
  | nil =>
    rcases hT with rfl | ⟨f, rfl⟩
    · simp
    · simp [List.take]
  | cons c R1 =>
    cases R1 with
    | nil =>
      rcases hT with rfl | ⟨f, rfl⟩
      · simp
      · simp [List.take]
    | cons d R2 =>
      simp [List.take]

theorem netlocSpan_bf (R T : Str) (hT : T = [] ∨ ∃ f, T = '#' :: f) :
    netlocSpan (R ++ T) = ((netlocSpan R).1, (netlocSpan R).2 ++ T) := by
  induction R with
  | nil =>
    rcases hT with rfl | ⟨f, rfl⟩
    · simp [netlocSpan]
    · simp [netlocSpan, isNetDelim]
  | cons c R1 ih =>
    by_cases hc : isNetDelim c = true
    · simp [netlocSpan, hc]
    · simp only [List.cons_append, netlocSpan, if_neg hc, List.append_eq, ih]

theorem take2_eq_cons (R : Str) (h : R.take 2 = ['/', '/']) :
    ∃ R2, R = '/' :: '/' :: R2 := by
  cases R with
  | nil => simp [List.take] at h
  | cons a R1 =>
    cases R1 with
    | nil => simp [List.take] at h
    | cons b R2 =>
      simp [List.take] at h
      obtain ⟨rfl, rfl⟩ := h
      exact ⟨R2, rfl⟩

theorem urlsplitCore_bf (S N D T : Str) (hD : ∀ c ∈ D, (c == '#') = false)
    (hT : T = [] ∨ ∃ f, T = '#' :: f) :
    (urlsplitCore S N (D ++ T)).map dropFrag = (urlsplitCore S N D).map dropFrag := by
  by_cases hbr : ('[' ∈ N ↔ ']' ∈ N)
  · have hfr1 : (splitOnFirst (· == '#') (D ++ T)).1 = D := by
      rcases hT with rfl | ⟨f, rfl⟩
      · rw [List.append_nil, splitOnFirst_eq_self _ D hD]
      · rw [splitOnFirst_append_found _ D '#' f hD (by simp)]
    have hfrD : (splitOnFirst (· == '#') D).1 = D := by
      rw [splitOnFirst_eq_self _ D hD]
    simp only [urlsplitCore, if_pos hbr, hfr1, hfrD, Option.map_some', dropFrag]
  · simp only [urlsplitCore, if_neg hbr, Option.map_none']

theorem urlsplitE_bf (B T : Str) (hB : ∀ c ∈ B, (c == '#') = false)
    (hT : T = [] ∨ ∃ f, T = '#' :: f) :
    (urlsplitE (B ++ T)).map dropFrag = (urlsplitE B).map dropFrag := by
  have hss := splitScheme_bf B T hB hT
  have hsnd_sub : ∀ c ∈ (splitScheme B).2, c ∈ B := by
    rcases splitScheme_cases B with ⟨heq, -⟩ | ⟨pre, rest, -, heq, hBeq⟩
    · rw [heq]
      intro c hc
      exact hc
    · rw [heq]
      intro c hc
      rw [hBeq]
      simp [hc]
  have hRf : ∀ c ∈ (splitScheme B).2, (c == '#') = false :=
    fun c hc => hB c (hsnd_sub c hc)
  unfold urlsplitE
  simp only [hss]
  by_cases htk : ((splitScheme B).2).take 2 = ['/', '/']
  · have htk2 : (((splitScheme B).2) ++ T).take 2 = ['/', '/'] :=
      (take2_bf _ T hT).mpr htk
    rw [if_pos htk2, if_pos htk]
    obtain ⟨R2, hR2⟩ := take2_eq_cons _ htk
    rw [hR2]
    simp only [List.cons_append, List.drop_succ_cons, List.drop_zero]
    rw [netlocSpan_bf R2 T hT]
    have hD : ∀ c ∈ (netlocSpan R2).2, (c == '#') = false := by
      intro c hc
      have hcR : c ∈ R2 := by
        rw [← netlocSpan_join R2]
        exact List.mem_append_right _ hc
      apply hRf
      rw [hR2]
      simp [hcR]
    exact urlsplitCore_bf _ _ _ T hD hT
  · have htk2 : ¬(((splitScheme B).2) ++ T).take 2 = ['/', '/'] :=
      fun hc => htk ((take2_bf _ T hT).mp hc)
    rw [if_neg htk2, if_neg htk]
    exact urlsplitCore_bf _ _ _ T hRf hT

theorem urlparseE_bf (B T : Str) (hB : ∀ c ∈ B, (c == '#') = false)
    (hT : T = [] ∨ ∃ f, T = '#' :: f) :
    (urlparseE (B ++ T)).map dropFrag = (urlparseE B).map dropFrag := by
  rw [urlparseE_eq, urlparseE_eq]
  have hsp := urlsplitE_bf B T hB hT
  cases h1 : urlsplitE (B ++ T) with
  | none =>
    cases h2 : urlsplitE B with
    | none => simp
    | some p2 =>
      rw [h1, h2] at hsp
      simp at hsp
  | some p1 =>
    cases h2 : urlsplitE B with
    | none =>
      rw [h1, h2] at hsp
      simp at hsp
    | some p2 =>
      rw [h1, h2] at hsp
      simp only [Option.map_some', Option.some.injEq] at hsp
      obtain ⟨s1, n1, pa1, pr1, q1, f1⟩ := p1
      obtain ⟨s2, n2, pa2, pr2, q2, f2⟩ := p2
      simp only [dropFrag, URLParts.mk.injEq, and_true] at hsp
      obtain ⟨rfl, rfl, rfl, rfl, rfl⟩ := hsp
      simp [dropFrag]

theorem frag_decomp (u : Str) :
    ∃ T, u = (splitOnFirst (· == '#') u).1 ++ T ∧ (T = [] ∨ ∃ f, T = '#' :: f) := by
  cases hsp : splitOnFirst (· == '#') u with
  | mk a ob =>
    cases ob with
    | some b =>
      obtain ⟨ha, c, hc, hu⟩ := splitOnFirst_found _ u a b hsp
      have hcc : c = '#' := by simpa using hc
      subst hcc
      exact ⟨'#' :: b, hu, Or.inr ⟨b, rfl⟩⟩
    | none =>
      obtain ⟨heq, -⟩ := splitOnFirst_none _ u a hsp
      exact ⟨[], by simp [heq], Or.inl rfl⟩

theorem normalize_dropFrag (v1 v2 : Str) (p1 p2 : URLParts)
    (hp1 : urlparseE v1 = some p1) (hp2 : urlparseE v2 = some p2)
    (hd : dropFrag p1 = dropFrag p2) : normalize_url v1 = normalize_url v2 := by
  rw [normalize_url_eq v1 p1 hp1, normalize_url_eq v2 p2 hp2]
  obtain ⟨s1, n1, pa1, pr1, q1, f1⟩ := p1
  obtain ⟨s2, n2, pa2, pr2, q2, f2⟩ := p2
  simp only [dropFrag, URLParts.mk.injEq, and_true] at hd
  obtain ⟨rfl, rfl, rfl, rfl, rfl⟩ := hd
  rfl

theorem normalize_url_bf (u1 u2 : Str)
    (h : (splitOnFirst (· == '#') u1).1 = (splitOnFirst (· == '#') u2).1)
    (h1 : urlparseE u1 ≠ none) :
    normalize_url u1 = normalize_url u2 := by
  obtain ⟨T1, hu1, hT1⟩ := frag_decomp u1
  obtain ⟨T2, hu2, hT2⟩ := frag_decomp u2
  rw [h] at hu1
  have hBf : ∀ c ∈ (splitOnFirst (· == '#') u2).1, (c == '#') = false :=
    splitOnFirst_fst_false _ u2
  have e1 := urlparseE_bf (splitOnFirst (· == '#') u2).1 T1 hBf hT1
  have e2 := urlparseE_bf (splitOnFirst (· == '#') u2).1 T2 hBf hT2
  rw [← hu1] at e1
  rw [← hu2] at e2
  have e3 : (urlparseE u1).map dropFrag = (urlparseE u2).map dropFrag := e1.trans e2.symm
  cases hq1 : urlparseE u1 with
  | none => exact absurd hq1 h1
  | some p1 =>
    cases hq2 : urlparseE u2 with
    | none =>
      rw [hq1, hq2] at e3
      simp at e3
    | some p2 =>
      rw [hq1, hq2] at e3
      simp only [Option.map_some', Option.some.injEq] at e3
      exact normalize_dropFrag u1 u2 p1 p2 hq1 hq2 e3

theorem normalize_url_none (u : Str) (h : urlparseE u = none) :
    normalize_url u = u := by
  unfold normalize_url
  rw [h]

/-- Claim C3: the spec asserts normalize_url is idempotent on every URL
string and maps two URLs identical except for their fragment to the same
string. Both halves fail as stated: re-normalizing appends a second slash
when the parsed path is empty but a query is present (or when an empty
netloc is followed by a path starting with //), and two fragment-variants
of a URL whose netloc has an unpaired bracket are passed through unchanged
and unequal. Amended: idempotence holds whenever every successful parse of
u has a nonempty path or an empty query, and not an empty netloc with a
path starting in // (in particular whenever parsing fails), and
fragment-insensitivity holds whenever the URL parses successfully. -/
theorem C3_normalize :
    (∀ u : Str, (∀ p, urlparseE u = some p →
        (p.path ≠ [] ∨ p.query = []) ∧
          ¬(p.netloc = [] ∧ p.path.take 2 = ['/', '/'])) →
      normalize_url (normalize_url u) = normalize_url u) ∧
    (∀ u1 u2 : Str,
      (splitOnFirst (· == '#') u1).1 = (splitOnFirst (· == '#') u2).1 →
      urlparseE u1 ≠ none → normalize_url u1 = normalize_url u2) := by
  constructor
  · intro u hcond
    cases hp : urlparseE u with
    | none => simp only [normalize_url_none u hp]
    | some p =>
      obtain ⟨h1, h2⟩ := hcond p hp
      exact normalize_url_idem u p hp h1 h2
  · intro u1 u2 h h1
    exact normalize_url_bf u1 u2 h h1

/-- Claim C3 counterexample: normalize_url applied twice to http://x?q
gives http://x?q// while one application gives http://x?q/, and the two
fragment-variants of the bracket-invalid //[a are returned unchanged and
unequal, refuting both halves of the claim as written. -/
theorem C3_counterexample :
    ¬(normalize_url (normalize_url (str "http://x?q")) =
        normalize_url (str "http://x?q")) ∧
    ((splitOnFirst (· == '#') (str "//[a#1")).1 =
        (splitOnFirst (· == '#') (str "//[a#2")).1 ∧
      ¬(normalize_url (str "//[a#1") = normalize_url (str "//[a#2"))) := by
  decide

/-- witness: the amended C3 at concrete inputs. -/
theorem C3_normalize_witness :
    normalize_url (normalize_url (str "http://x/a?b")) =
      normalize_url (str "http://x/a?b") ∧
    normalize_url (str "http://x/p#1") = normalize_url (str "http://x/p#2") := by
  constructor
  · refine C3_normalize.1 (str "http://x/a?b") ?_
    intro p hp
    rw [show urlparseE (str "http://x/a?b") =
        some (⟨str "http", str "x", str "/a", [], str "b", []⟩ : URLParts) from
      by decide] at hp
    injection hp with h2
    subst h2
    exact ⟨Or.inl (by decide), by decide⟩
  · exact C3_normalize.2 (str "http://x/p#1") (str "http://x/p#2")
      (by decide) (by decide)
